import Mathlib

/-!
Shallow embedding of `negotiate.py` (Metaswitch onf-ttp-negotiation), a
Python 2 module implementing TTP capability negotiation between a
controller and a switch.  Python runtime values are modelled by `PyVal`
(ints and floats mapped to `Int`/`Rat`), runtime faults (`KeyError`,
`ZeroDivisionError`, `IndexError`, `AttributeError`) by `Except PyErr`,
and Python 2 numeric semantics (floor division on ints, value-based
comparison across int/bool/float) are modelled explicitly.
-/

deriving instance DecidableEq for Except

namespace Negotiate

/-- Python runtime errors that the negotiation code can raise. -/
inductive PyErr where
  | keyError : String → PyErr
  | zeroDivisionError : PyErr
  | indexError : PyErr
  | attributeError : String → PyErr
deriving DecidableEq, Repr

/-- Python values occurring in this module: ints, bools and floats.
Floats are modelled as rationals. -/
inductive PyVal where
  | int : Int → PyVal
  | bool : Bool → PyVal
  | float : Rat → PyVal
deriving DecidableEq, Repr

/-- Numeric value of a Python value (Python 2 compares int/bool/float
by numeric value; True == 1, False == 0). -/
def PyVal.toQ : PyVal → Rat
  | .int n => (n : Rat)
  | .bool b => if b then 1 else 0
  | .float q => q

/-- In Python 2, `bool` is a subtype of `int`; ints and bools use
integer arithmetic (in particular floor division). -/
def PyVal.isIntLike : PyVal → Bool
  | .int _ => true
  | .bool _ => true
  | .float _ => false

/-- Integer interpretation of an int-like value. -/
def PyVal.toZ : PyVal → Int
  | .int n => n
  | .bool b => if b then 1 else 0
  | .float _ => 0

/-- Python 2 division `a / b`: floor division when both operands are
int-like, true division otherwise; raises ZeroDivisionError on zero. -/
def pyDiv (a b : PyVal) : Except PyErr PyVal :=
  if a.isIntLike && b.isIntLike then
    if b.toZ = 0 then .error .zeroDivisionError
    else .ok (.int (Int.fdiv a.toZ b.toZ))
  else
    if b.toQ = 0 then .error .zeroDivisionError
    else .ok (.float (a.toQ / b.toQ))

/-- Python 2 multiplication on numeric values. -/
def pyMul (a b : PyVal) : PyVal :=
  if a.isIntLike && b.isIntLike then .int (a.toZ * b.toZ)
  else .float (a.toQ * b.toQ)

/-- Python `min(a, b)`: returns `b` when `b < a`, else `a`
(the first argument wins ties). -/
def pyMin (a b : PyVal) : PyVal :=
  if b.toQ < a.toQ then b else a

/-- A Python dict with string keys, as an association list
(first binding of a key is the visible one). -/
abbrev Params : Type := List (String × PyVal)

/-- Dict read `d[k]`: raises `KeyError` when the key is absent. -/
def dictGet (p : Params) (k : String) : Except PyErr PyVal :=
  match p.find? (fun kv => kv.1 = k) with
  | some kv => .ok kv.2
  | none => .error (.keyError k)

/-- Dict read as an option (specification-side helper). -/
def lookupV (p : Params) (k : String) : Option PyVal :=
  (p.find? (fun kv => kv.1 = k)).map (fun kv => kv.2)

/-- Dict write `d[k] = v`: replaces the first binding of `k`,
appends when absent. -/
def dictSet : Params → String → PyVal → Params
  | [], k, v => [(k, v)]
  | kv :: rest, k, v =>
      if kv.1 = k then (k, v) :: rest else kv :: dictSet rest k v

/-- A constraint dict as used by `negotiate.py`.  Optional fields model
keys that may be absent from the Python dict; reading an absent field
raises `KeyError`. -/
structure Constraint where
  type : String
  param : Option String := none
  min : Option PyVal := none
  max : Option PyVal := none
  value : Option PyVal := none
  score : Option PyVal := none
  param1 : Option String := none
  param2 : Option String := none
  ratio : Option PyVal := none
deriving DecidableEq, Repr

/-- Read a required dict field: `cons[k]` raises `KeyError(k)` when the
field is absent. -/
def req (o : Option α) (k : String) : Except PyErr α :=
  match o with
  | some a => .ok a
  | none => .error (.keyError k)

/-- The upper-bound half of the in-loop check: `True` (violated) when
an upper bound is present and below `x`. -/
def hiCheck (hi? : Option PyVal) (x : Rat) : Except PyErr Bool :=
  match hi? with
  | some hi => pure (decide (hi.toQ < x))
  | none => pure false

/-- The min/max check `constraints_met` performs on a parameter value
or ratio `x`: `True` (violated, triggering the early return) when a
present lower bound exceeds `x`, else when a present upper bound is
below `x`. -/
def boundCheck (lo? hi? : Option PyVal) (x : Rat) : Except PyErr Bool :=
  match lo? with
  | some lo => if x < lo.toQ then pure true else hiCheck hi? x
  | none => hiCheck hi? x

/-- One iteration of the loop body of `Switch.constraints_met`: does this
constraint trigger the early `return False`?  Mirrors the source: bound
constraints (`max`/`min`/`best`) check the parameter value against the
optional `min`/`max` fields; ratio constraints compute
`ratio = v2 * 1.0 / v1` (true division) and check it against the optional
bounds; other types are skipped. -/
def consViolated (c : Constraint) (p : Params) : Except PyErr Bool := do
  if c.type = "max" ∨ c.type = "min" ∨ c.type = "best" then
    let pname ← req c.param "param"
    let val ← dictGet p pname
    boundCheck c.min c.max val.toQ
  else if c.type = "ratio" then
    let n1 ← req c.param1 "param1"
    let n2 ← req c.param2 "param2"
    let v1 ← dictGet p n1
    let v2 ← dictGet p n2
    let r ← pyDiv (pyMul v2 (.float 1)) v1
    boundCheck c.min c.max r.toQ
  else
    pure false

/-- `Switch.constraints_met`: returns `False` at the first violated
constraint, `True` when no constraint is violated. -/
def constraints_met : List Constraint → Params → Except PyErr Bool
  | [], _ => .ok true
  | c :: rest, p => do
      let v ← consViolated c p
      if v then pure false else constraints_met rest p

/-- Contribution of one constraint to `Switch.score`.  Mirrors the
source: `max` adds `val * score`, `min` subtracts it, `best` with a bool
target adds `score` on equality (reading the `score` field only in that
case), `best` otherwise adds `abs(val - value) * score`; `ratio` computes
`ratio = v2 / v1` (Python 2: floor division on ints) and subtracts
`abs(ratio - cons.ratio) * score`. -/
def scoreCons (c : Constraint) (p : Params) : Except PyErr Rat := do
  if c.type = "max" ∨ c.type = "min" ∨ c.type = "best" then
    let pname ← req c.param "param"
    let val ← dictGet p pname
    if c.type = "max" then
      let w ← req c.score "score"
      pure (val.toQ * w.toQ)
    else if c.type = "min" then
      let w ← req c.score "score"
      pure (-(val.toQ * w.toQ))
    else
      let tv ← req c.value "value"
      match tv with
      | .bool b =>
          if val.toQ = (PyVal.bool b).toQ then
            let w ← req c.score "score"
            pure w.toQ
          else
            pure 0
      | _ =>
          let w ← req c.score "score"
          pure (|val.toQ - tv.toQ| * w.toQ)
  else if c.type = "ratio" then
    let n1 ← req c.param1 "param1"
    let n2 ← req c.param2 "param2"
    let v1 ← dictGet p n1
    let v2 ← dictGet p n2
    let r ← pyDiv v2 v1
    let tr ← req c.ratio "ratio"
    let w ← req c.score "score"
    pure (-(|r.toQ - tr.toQ| * w.toQ))
  else
    pure 0

/-- `Switch.score`: sums the per-constraint contributions. -/
def score (cons : List Constraint) (p : Params) : Except PyErr Rat :=
  match cons with
  | [] => .ok 0
  | c :: rest => do
      let x ← scoreCons c p
      let s ← score rest p
      pure (x + s)

/-! ### Version model: `parse_version` / `format_version` -/

/-- A component of a parsed version tuple: an int or a string token. -/
inductive VerComp where
  | int : Int → VerComp
  | str : String → VerComp
deriving DecidableEq, Repr

/-- `str.split(".")` on the character list: cuts at every dot, keeping
empty parts (one more part than there are dots). -/
def splitDots : List Char → List (List Char)
  | [] => [[]]
  | c :: rest =>
      match splitDots rest with
      | [] => [[]]
      | part :: parts =>
          if c = '.' then [] :: part :: parts
          else (c :: part) :: parts

/-- `".".join(...)` on character lists. -/
def joinDots : List (List Char) → List Char
  | [] => []
  | [part] => part
  | part :: parts => part ++ '.' :: joinDots parts

/-- Numeric value of a big-endian list of digit characters
(`int(...)` on a plain digit string). -/
def digitsToNat (cs : List Char) : Nat :=
  cs.foldl (fun a c => 10 * a + (c.toNat - 48)) 0

/-- The whitespace stripping `int(s)` performs (the model covers the
space, tab, CR and LF characters). -/
def pyStrip (cs : List Char) : List Char :=
  ((cs.dropWhile Char.isWhitespace).reverse.dropWhile
    Char.isWhitespace).reverse

/-- Python 2 `int(s)` on a string: strips surrounding whitespace, allows
one optional sign, then requires at least one digit; anything else
raises `ValueError` (modelled as `none`). -/
def pyInt? (cs : List Char) : Option Int :=
  match pyStrip cs with
  | [] => none
  | c :: ds =>
      if c = '+' then
        if ds ≠ [] ∧ ds.all Char.isDigit then some (digitsToNat ds)
        else none
      else if c = '-' then
        if ds ≠ [] ∧ ds.all Char.isDigit then some (-(digitsToNat ds : Int))
        else none
      else if (c :: ds).all Char.isDigit then some (digitsToNat (c :: ds))
      else none

/-- One part of the dotted string: an int when `int(part)` succeeds,
else a string token. -/
def parsePart (part : List Char) : VerComp :=
  match pyInt? part with
  | some n => .int n
  | none => .str (String.mk part)

/-- `parse_version`: split on dots; each part becomes an int when
`int(part)` succeeds, else stays a string token. -/
def parse_version (ver : String) : List VerComp :=
  (splitDots ver.data).map parsePart

/-- Claim C7 (amended) calls a part good when it is a nonempty
alphanumeric token that, when it consists only of digits, carries no
leading zero (the single digit "0" apart). -/
def goodPart (part : List Char) : Prop :=
  part ≠ [] ∧ part.all Char.isAlphanum = true ∧
  (part.all Char.isDigit = true → part.head? ≠ some '0' ∨ part = ['0'])

/-- Fuel-indexed big-endian decimal digits of a natural number
(empty for zero). -/
def natDigsAux : Nat → Nat → List Char
  | 0, _ => []
  | fuel + 1, n =>
      if n = 0 then []
      else natDigsAux fuel (n / 10) ++ [Char.ofNat (48 + n % 10)]

/-- Decimal digit characters of a natural number (`str(n)` for `n ≥ 0`). -/
def natChars (n : Nat) : List Char :=
  if n = 0 then ['0'] else natDigsAux (n + 1) n

/-- `str(n)` for a Python int. -/
def intChars (n : Int) : List Char :=
  if n < 0 then '-' :: natChars n.natAbs else natChars n.natAbs

/-- `str(x)` for a version component. -/
def compChars : VerComp → List Char
  | .int n => intChars n
  | .str s => s.data

/-- `format_version`: join the string forms of the components with dots. -/
def format_version (v : List VerComp) : String :=
  String.mk (joinDots (v.map compChars))

/-! ### A small theory of Python 2 three-way comparisons

`cmp(x, y)` in Python 2 is total on the values this module handles.
We model the relevant instances (numbers, strings, tuples, version
tuples, dicts) as `Ordering`-valued functions and prove the order laws
needed to reason about `list.sort` / maximum selection. -/

/-- Three-way comparison from a linear order. -/
def cmpOfLt [LinearOrder α] (a b : α) : Ordering :=
  if a < b then .lt else if b < a then .gt else .eq

/-- Laws making an `Ordering`-valued comparison a total preorder with
antisymmetric swap; enough to reason about sorting and maxima. -/
structure IsTotalCmp (cmp : α → α → Ordering) : Prop where
  swap : ∀ a b, (cmp a b).swap = cmp b a
  lt_trans : ∀ a b c, cmp a b = .lt → cmp b c = .lt → cmp a c = .lt
  eq_trans : ∀ a b c, cmp a b = .eq → cmp b c = .eq → cmp a c = .eq
  lt_of_lt_of_eq : ∀ a b c, cmp a b = .lt → cmp b c = .eq → cmp a c = .lt
  lt_of_eq_of_lt : ∀ a b c, cmp a b = .eq → cmp b c = .lt → cmp a c = .lt

theorem IsTotalCmp.gt_iff_lt {cmp : α → α → Ordering} (h : IsTotalCmp cmp)
    (a b : α) : cmp a b = .gt ↔ cmp b a = .lt := by
  constructor
  · intro hab
    have := h.swap a b
    rw [hab] at this
    exact this.symm
  · intro hba
    have := h.swap b a
    rw [hba] at this
    exact this.symm

theorem IsTotalCmp.refl {cmp : α → α → Ordering} (h : IsTotalCmp cmp)
    (a : α) : cmp a a = .eq := by
  have hs := h.swap a a
  cases hx : cmp a a with
  | lt => rw [hx] at hs; exact absurd hs.symm (by decide)
  | gt => rw [hx] at hs; exact absurd hs.symm (by decide)
  | eq => rfl

theorem IsTotalCmp.not_lt_self {cmp : α → α → Ordering} (h : IsTotalCmp cmp)
    (a : α) : cmp a a ≠ .lt := by
  rw [h.refl a]
  decide

/-- No strict cycle: `a ⪯ b` and `b ⪯ c` give `a ⪯ c`
(with `x ⪯ y` meaning `cmp x y ≠ .gt`). -/
theorem IsTotalCmp.le_trans {cmp : α → α → Ordering}
    (h : IsTotalCmp cmp) (a b c : α) (hab : cmp a b ≠ .gt)
    (hbc : cmp b c ≠ .gt) : cmp a c ≠ .gt := by
  intro hac
  have hca : cmp c a = .lt := (h.gt_iff_lt a c).mp hac
  cases hab' : cmp a b with
  | gt => exact hab hab'
  | lt =>
      cases hbc' : cmp b c with
      | gt => exact hbc hbc'
      | lt =>
          have hac' := h.lt_trans a b c hab' hbc'
          exact h.not_lt_self a (h.lt_trans a c a hac' hca)
      | eq =>
          have hac' := h.lt_of_lt_of_eq a b c hab' hbc'
          exact h.not_lt_self a (h.lt_trans a c a hac' hca)
  | eq =>
      cases hbc' : cmp b c with
      | gt => exact hbc hbc'
      | lt =>
          have hac' := h.lt_of_eq_of_lt a b c hab' hbc'
          exact h.not_lt_self a (h.lt_trans a c a hac' hca)
      | eq =>
          have hac' := h.eq_trans a b c hab' hbc'
          exact h.not_lt_self a (h.lt_of_eq_of_lt a c a hac' hca)

/-- A strict step after a weak step stays strict. -/
theorem IsTotalCmp.lt_of_le_of_lt {cmp : α → α → Ordering}
    (h : IsTotalCmp cmp) (a b c : α) (hab : cmp a b ≠ .gt)
    (hbc : cmp b c = .lt) : cmp a c = .lt := by
  cases hab' : cmp a b with
  | gt => exact absurd hab' hab
  | lt => exact h.lt_trans a b c hab' hbc
  | eq => exact h.lt_of_eq_of_lt a b c hab' hbc

theorem cmpOfLt_lt_iff [LinearOrder α] {a b : α} :
    cmpOfLt a b = .lt ↔ a < b := by
  unfold cmpOfLt
  split_ifs with h1 h2
  · simp [h1]
  · simp [h1]
  · simp [h1]

theorem cmpOfLt_gt_iff [LinearOrder α] {a b : α} :
    cmpOfLt a b = .gt ↔ b < a := by
  unfold cmpOfLt
  split_ifs with h1 h2
  · simp [asymm h1]
  · simp [h2]
  · simp [h2]

theorem cmpOfLt_eq_iff [LinearOrder α] {a b : α} :
    cmpOfLt a b = .eq ↔ a = b := by
  unfold cmpOfLt
  split_ifs with h1 h2
  · simp [h1.ne]
  · simp [h2.ne.symm]
  · simp [le_antisymm (le_of_not_lt h2) (le_of_not_lt h1)]

theorem cmpOfLt_isTotal [LinearOrder α] :
    IsTotalCmp (cmpOfLt (α := α)) := by
  constructor
  · intro a b
    rcases lt_trichotomy a b with h | h | h
    · rw [cmpOfLt_lt_iff.mpr h, cmpOfLt_gt_iff.mpr h]
      rfl
    · rw [cmpOfLt_eq_iff.mpr h, cmpOfLt_eq_iff.mpr h.symm]
      rfl
    · rw [cmpOfLt_gt_iff.mpr h, cmpOfLt_lt_iff.mpr h]
      rfl
  · intro a b c hab hbc
    exact cmpOfLt_lt_iff.mpr
      (lt_trans (cmpOfLt_lt_iff.mp hab) (cmpOfLt_lt_iff.mp hbc))
  · intro a b c hab hbc
    exact cmpOfLt_eq_iff.mpr
      ((cmpOfLt_eq_iff.mp hab).trans (cmpOfLt_eq_iff.mp hbc))
  · intro a b c hab hbc
    exact cmpOfLt_lt_iff.mpr ((cmpOfLt_eq_iff.mp hbc) ▸ cmpOfLt_lt_iff.mp hab)
  · intro a b c hab hbc
    exact cmpOfLt_lt_iff.mpr ((cmpOfLt_eq_iff.mp hab) ▸ cmpOfLt_lt_iff.mp hbc)

theorem Ordering.then_lt_iff {a b : Ordering} :
    a.then b = .lt ↔ a = .lt ∨ (a = .eq ∧ b = .lt) := by
  cases a <;> cases b <;> decide

theorem Ordering.then_gt_iff {a b : Ordering} :
    a.then b = .gt ↔ a = .gt ∨ (a = .eq ∧ b = .gt) := by
  cases a <;> cases b <;> decide

theorem Ordering.then_eq_iff {a b : Ordering} :
    a.then b = .eq ↔ a = .eq ∧ b = .eq := by
  cases a <;> cases b <;> decide

theorem Ordering.swap_then (a b : Ordering) :
    (a.then b).swap = a.swap.then b.swap := by
  cases a <;> cases b <;> decide

/-- Lexicographic pair comparison (Python tuple comparison, arity 2). -/
def prodCmp (f : α → α → Ordering) (g : β → β → Ordering)
    (x y : α × β) : Ordering :=
  (f x.1 y.1).then (g x.2 y.2)

/-- Comparison through a key function. -/
def mapCmp (k : γ → α) (c : α → α → Ordering) (x y : γ) : Ordering :=
  c (k x) (k y)

/-- Lexicographic list comparison (Python sequence comparison:
elementwise, a strict prefix compares below). -/
def listCmp (c : α → α → Ordering) : List α → List α → Ordering
  | [], [] => .eq
  | [], _ :: _ => .lt
  | _ :: _, [] => .gt
  | x :: xs, y :: ys => (c x y).then (listCmp c xs ys)

theorem prodCmp_isTotal {f : α → α → Ordering} {g : β → β → Ordering}
    (hf : IsTotalCmp f) (hg : IsTotalCmp g) : IsTotalCmp (prodCmp f g) := by
  constructor
  · intro a b
    unfold prodCmp
    rw [Ordering.swap_then, hf.swap, hg.swap]
  · intro a b c hab hbc
    rw [prodCmp, Ordering.then_lt_iff] at *
    rcases hab with h1 | ⟨h1, h1'⟩ <;> rcases hbc with h2 | ⟨h2, h2'⟩
    · exact Or.inl (hf.lt_trans _ _ _ h1 h2)
    · exact Or.inl (hf.lt_of_lt_of_eq _ _ _ h1 h2)
    · exact Or.inl (hf.lt_of_eq_of_lt _ _ _ h1 h2)
    · exact Or.inr ⟨hf.eq_trans _ _ _ h1 h2, hg.lt_trans _ _ _ h1' h2'⟩
  · intro a b c hab hbc
    rw [prodCmp, Ordering.then_eq_iff] at *
    exact ⟨hf.eq_trans _ _ _ hab.1 hbc.1, hg.eq_trans _ _ _ hab.2 hbc.2⟩
  · intro a b c hab hbc
    rw [prodCmp, Ordering.then_lt_iff] at *
    rw [Ordering.then_eq_iff] at hbc
    rcases hab with h1 | ⟨h1, h1'⟩
    · exact Or.inl (hf.lt_of_lt_of_eq _ _ _ h1 hbc.1)
    · exact Or.inr ⟨hf.eq_trans _ _ _ h1 hbc.1,
        hg.lt_of_lt_of_eq _ _ _ h1' hbc.2⟩
  · intro a b c hab hbc
    rw [prodCmp, Ordering.then_lt_iff] at *
    rw [Ordering.then_eq_iff] at hab
    rcases hbc with h2 | ⟨h2, h2'⟩
    · exact Or.inl (hf.lt_of_eq_of_lt _ _ _ hab.1 h2)
    · exact Or.inr ⟨hf.eq_trans _ _ _ hab.1 h2,
        hg.lt_of_eq_of_lt _ _ _ hab.2 h2'⟩

theorem mapCmp_isTotal {k : γ → α} {c : α → α → Ordering}
    (hc : IsTotalCmp c) : IsTotalCmp (mapCmp k c) := by
  constructor
  · intro a b
    exact hc.swap (k a) (k b)
  · intro a b c' hab hbc
    exact hc.lt_trans _ _ _ hab hbc
  · intro a b c' hab hbc
    exact hc.eq_trans _ _ _ hab hbc
  · intro a b c' hab hbc
    exact hc.lt_of_lt_of_eq _ _ _ hab hbc
  · intro a b c' hab hbc
    exact hc.lt_of_eq_of_lt _ _ _ hab hbc

theorem listCmp_swap {c : α → α → Ordering} (hc : IsTotalCmp c) :
    ∀ xs ys : List α, (listCmp c xs ys).swap = listCmp c ys xs := by
  intro xs
  induction xs with
  | nil => intro ys; cases ys <;> rfl
  | cons x xs ih =>
      intro ys
      cases ys with
      | nil => rfl
      | cons y ys =>
          show (listCmp c (x :: xs) (y :: ys)).swap = _
          rw [listCmp, listCmp, Ordering.swap_then, hc.swap, ih]

theorem listCmp_lt_trans {c : α → α → Ordering} (hc : IsTotalCmp c) :
    ∀ xs ys zs : List α, listCmp c xs ys = .lt → listCmp c ys zs = .lt →
      listCmp c xs zs = .lt := by
  intro xs
  induction xs with
  | nil =>
      intro ys zs hab hbc
      cases ys with
      | nil => exact hbc
      | cons y ys =>
          cases zs with
          | nil => exact Ordering.noConfusion hbc
          | cons z zs => rfl
  | cons x xs ih =>
      intro ys zs hab hbc
      cases ys with
      | nil => exact Ordering.noConfusion hab
      | cons y ys =>
          cases zs with
          | nil => exact Ordering.noConfusion hbc
          | cons z zs =>
              rw [listCmp, Ordering.then_lt_iff] at *
              rcases hab with h1 | ⟨h1, h1'⟩ <;>
                rcases hbc with h2 | ⟨h2, h2'⟩
              · exact Or.inl (hc.lt_trans _ _ _ h1 h2)
              · exact Or.inl (hc.lt_of_lt_of_eq _ _ _ h1 h2)
              · exact Or.inl (hc.lt_of_eq_of_lt _ _ _ h1 h2)
              · exact Or.inr ⟨hc.eq_trans _ _ _ h1 h2, ih _ _ h1' h2'⟩

theorem listCmp_eq_trans {c : α → α → Ordering} (hc : IsTotalCmp c) :
    ∀ xs ys zs : List α, listCmp c xs ys = .eq → listCmp c ys zs = .eq →
      listCmp c xs zs = .eq := by
  intro xs
  induction xs with
  | nil =>
      intro ys zs hab hbc
      cases ys with
      | nil => exact hbc
      | cons y ys => exact Ordering.noConfusion hab
  | cons x xs ih =>
      intro ys zs hab hbc
      cases ys with
      | nil => exact Ordering.noConfusion hab
      | cons y ys =>
          cases zs with
          | nil => exact Ordering.noConfusion hbc
          | cons z zs =>
              rw [listCmp, Ordering.then_eq_iff] at *
              exact ⟨hc.eq_trans _ _ _ hab.1 hbc.1, ih _ _ hab.2 hbc.2⟩

theorem listCmp_lt_of_lt_of_eq {c : α → α → Ordering} (hc : IsTotalCmp c) :
    ∀ xs ys zs : List α, listCmp c xs ys = .lt → listCmp c ys zs = .eq →
      listCmp c xs zs = .lt := by
  intro xs
  induction xs with
  | nil =>
      intro ys zs hab hbc
      cases ys with
      | nil => exact Ordering.noConfusion hab
      | cons y ys =>
          cases zs with
          | nil => exact Ordering.noConfusion hbc
          | cons z zs => rfl
  | cons x xs ih =>
      intro ys zs hab hbc
      cases ys with
      | nil => exact Ordering.noConfusion hab
      | cons y ys =>
          cases zs with
          | nil => exact Ordering.noConfusion hbc
          | cons z zs =>
              rw [listCmp, Ordering.then_lt_iff] at hab ⊢
              rw [listCmp, Ordering.then_eq_iff] at hbc
              rcases hab with h1 | ⟨h1, h1'⟩
              · exact Or.inl (hc.lt_of_lt_of_eq _ _ _ h1 hbc.1)
              · exact Or.inr ⟨hc.eq_trans _ _ _ h1 hbc.1, ih _ _ h1' hbc.2⟩

theorem listCmp_lt_of_eq_of_lt {c : α → α → Ordering} (hc : IsTotalCmp c) :
    ∀ xs ys zs : List α, listCmp c xs ys = .eq → listCmp c ys zs = .lt →
      listCmp c xs zs = .lt := by
  intro xs
  induction xs with
  | nil =>
      intro ys zs hab hbc
      cases ys with
      | nil => exact hbc
      | cons y ys => exact Ordering.noConfusion hab
  | cons x xs ih =>
      intro ys zs hab hbc
      cases ys with
      | nil => exact Ordering.noConfusion hab
      | cons y ys =>
          cases zs with
          | nil => exact Ordering.noConfusion hbc
          | cons z zs =>
              rw [listCmp, Ordering.then_eq_iff] at hab
              rw [listCmp, Ordering.then_lt_iff] at hbc ⊢
              rcases hbc with h2 | ⟨h2, h2'⟩
              · exact Or.inl (hc.lt_of_eq_of_lt _ _ _ hab.1 h2)
              · exact Or.inr ⟨hc.eq_trans _ _ _ hab.1 h2, ih _ _ hab.2 h2'⟩

theorem listCmp_isTotal {c : α → α → Ordering} (hc : IsTotalCmp c) :
    IsTotalCmp (listCmp c) :=
  ⟨listCmp_swap hc, listCmp_lt_trans hc, listCmp_eq_trans hc,
    listCmp_lt_of_lt_of_eq hc, listCmp_lt_of_eq_of_lt hc⟩

/-- Head of a descending stable sort: `xs.sort(reverse=True)` followed
by `xs[0]` returns the first element attaining the maximum under `cmp`
(a stable sort only moves an element ahead of another on a strict
comparison). -/
def argmaxC (cmp : α → α → Ordering) : List α → Option α
  | [] => none
  | x :: xs => some (xs.foldl (fun b y => if cmp b y = .lt then y else b) x)

theorem argmaxC_foldl {cmp : α → α → Ordering} (hc : IsTotalCmp cmp) :
    ∀ (xs : List α) (b : α),
      (xs.foldl (fun b y => if cmp b y = .lt then y else b) b = b ∧
        ∀ y ∈ xs, cmp y b ≠ .gt) ∨
      (∃ l1 l2, xs = l1 ++ xs.foldl
          (fun b y => if cmp b y = .lt then y else b) b :: l2 ∧
        cmp b (xs.foldl (fun b y => if cmp b y = .lt then y else b) b)
          = .lt ∧
        (∀ y ∈ l1, cmp y (xs.foldl
          (fun b y => if cmp b y = .lt then y else b) b) = .lt) ∧
        (∀ y ∈ l2, cmp y (xs.foldl
          (fun b y => if cmp b y = .lt then y else b) b) ≠ .gt)) := by
  intro xs
  induction xs with
  | nil =>
      intro b
      exact Or.inl ⟨rfl, by intro y hy; cases hy⟩
  | cons x xs ih =>
      intro b
      by_cases hbx : cmp b x = .lt
      · have hstep : (x :: xs).foldl
            (fun b y => if cmp b y = .lt then y else b) b =
            xs.foldl (fun b y => if cmp b y = .lt then y else b) x := by
          simp [List.foldl, hbx]
        rcases ih x with ⟨heq, hall⟩ | ⟨l1, l2, hsplit, hlt, hl1, hl2⟩
        · refine Or.inr ⟨[], xs, ?_, ?_, ?_, ?_⟩
          · rw [hstep, heq]
            simp
          · rw [hstep, heq]; exact hbx
          · intro y hy; cases hy
          · rw [hstep, heq]; exact hall
        · refine Or.inr ⟨x :: l1, l2, ?_, ?_, ?_, ?_⟩
          · rw [hstep]
            exact congrArg (x :: ·) hsplit
          · rw [hstep]
            exact hc.lt_trans _ _ _ hbx hlt
          · intro y hy
            rw [hstep]
            rcases List.mem_cons.mp hy with rfl | hy'
            · exact hlt
            · exact hl1 y hy'
          · intro y hy
            rw [hstep]
            exact hl2 y hy
      · have hstep : (x :: xs).foldl
            (fun b y => if cmp b y = .lt then y else b) b =
            xs.foldl (fun b y => if cmp b y = .lt then y else b) b := by
          simp [List.foldl, hbx]
        have hxb : cmp x b ≠ .gt := by
          intro hg
          exact hbx ((hc.gt_iff_lt x b).mp hg)
        rcases ih b with ⟨heq, hall⟩ | ⟨l1, l2, hsplit, hlt, hl1, hl2⟩
        · refine Or.inl ⟨by rw [hstep, heq], ?_⟩
          intro y hy
          rcases List.mem_cons.mp hy with rfl | hy'
          · rw [hstep, heq] at *
            exact hxb
          · rw [hstep, heq] at *
            exact hall y hy'
        · refine Or.inr ⟨x :: l1, l2, ?_, ?_, ?_, ?_⟩
          · rw [hstep]
            exact congrArg (x :: ·) hsplit
          · rw [hstep]
            exact hlt
          · intro y hy
            rw [hstep]
            rcases List.mem_cons.mp hy with rfl | hy'
            · exact hc.lt_of_le_of_lt _ _ _ hxb hlt
            · exact hl1 y hy'
          · intro y hy
            rw [hstep]
            exact hl2 y hy

/-- The element returned by `argmaxC` splits the list into a strictly
smaller prefix, itself, and a weakly smaller suffix. -/
theorem argmaxC_spec {cmp : α → α → Ordering} (hc : IsTotalCmp cmp)
    (l : List α) (m : α) (h : argmaxC cmp l = some m) :
    ∃ l1 l2, l = l1 ++ m :: l2 ∧ (∀ x ∈ l1, cmp x m = .lt) ∧
      (∀ x ∈ l, cmp x m ≠ .gt) := by
  cases l with
  | nil => cases h
  | cons x xs =>
      have hm : xs.foldl (fun b y => if cmp b y = .lt then y else b) x
          = m := by
        have := h
        rw [argmaxC] at this
        exact Option.some.inj this
      rcases argmaxC_foldl hc xs x with ⟨heq, hall⟩ |
        ⟨l1, l2, hsplit, hlt, hl1, hl2⟩
      · refine ⟨[], xs, ?_, ?_, ?_⟩
        · rw [← hm, heq]
          simp
        · intro y hy; cases hy
        · intro y hy
          rcases List.mem_cons.mp hy with rfl | hy'
          · rw [← hm, heq, hc.refl]
            decide
          · rw [← hm, heq]
            exact hall y hy'
      · rw [hm] at hsplit hlt hl1 hl2
        refine ⟨x :: l1, l2, by simp [hsplit], ?_, ?_⟩
        · intro y hy
          rcases List.mem_cons.mp hy with rfl | hy'
          · exact hlt
          · exact hl1 y hy'
        · intro y hy
          rcases List.mem_cons.mp hy with rfl | hy'
          · rw [hlt]
            decide
          · rcases List.mem_append.mp (by rw [hsplit] at hy'; exact hy')
              with hmem | hmem
            · rw [hl1 y hmem]
              decide
            · rcases List.mem_cons.mp hmem with rfl | hmem'
              · rw [hc.refl]
                decide
              · exact hl2 y hmem'

/-! ### The concrete Python 2 comparisons used by the module -/

/-- Character comparison by code point. -/
def charCmp : Char → Char → Ordering :=
  mapCmp (fun c => c.toNat) cmpOfLt

/-- Python 2 string comparison: lexicographic byte order (all strings
compared by this module are ASCII). -/
def strCmp : String → String → Ordering :=
  mapCmp (fun s => s.data) (listCmp charCmp)

theorem strCmp_isTotal : IsTotalCmp strCmp :=
  mapCmp_isTotal (listCmp_isTotal (mapCmp_isTotal cmpOfLt_isTotal))

/-- Python 2 `cmp` on version-tuple components: ints compare
numerically, strings lexicographically (byte order on the ASCII strings
occurring here), and any int compares below any string (Python 2 orders
mixed types by type name, and "int" < "str"). -/
def verCompCmp : VerComp → VerComp → Ordering
  | .int a, .int b => cmpOfLt a b
  | .int _, .str _ => .lt
  | .str _, .int _ => .gt
  | .str a, .str b => strCmp a b

theorem verCompCmp_isTotal : IsTotalCmp verCompCmp := by
  constructor
  · intro a b
    cases a <;> cases b <;>
      first
        | rfl
        | exact cmpOfLt_isTotal.swap _ _
        | exact strCmp_isTotal.swap _ _
  · intro a b c hab hbc
    cases a <;> cases b <;> cases c <;>
      first
        | rfl
        | exact Ordering.noConfusion hab
        | exact Ordering.noConfusion hbc
        | exact cmpOfLt_isTotal.lt_trans _ _ _ hab hbc
        | exact strCmp_isTotal.lt_trans _ _ _ hab hbc
  · intro a b c hab hbc
    cases a <;> cases b <;> cases c <;>
      first
        | rfl
        | exact Ordering.noConfusion hab
        | exact Ordering.noConfusion hbc
        | exact cmpOfLt_isTotal.eq_trans _ _ _ hab hbc
        | exact strCmp_isTotal.eq_trans _ _ _ hab hbc
  · intro a b c hab hbc
    cases a <;> cases b <;> cases c <;>
      first
        | rfl
        | exact Ordering.noConfusion hab
        | exact Ordering.noConfusion hbc
        | exact cmpOfLt_isTotal.lt_of_lt_of_eq _ _ _ hab hbc
        | exact strCmp_isTotal.lt_of_lt_of_eq _ _ _ hab hbc
  · intro a b c hab hbc
    cases a <;> cases b <;> cases c <;>
      first
        | rfl
        | exact Ordering.noConfusion hab
        | exact Ordering.noConfusion hbc
        | exact cmpOfLt_isTotal.lt_of_eq_of_lt _ _ _ hab hbc
        | exact strCmp_isTotal.lt_of_eq_of_lt _ _ _ hab hbc

/-- Python 2 comparison of parsed version tuples. -/
def verCmp : List VerComp → List VerComp → Ordering := listCmp verCompCmp

theorem verCmp_isTotal : IsTotalCmp verCmp :=
  listCmp_isTotal verCompCmp_isTotal

/-- Numeric (key, value) entry comparison. -/
def entryCmp : (String × Rat) → (String × Rat) → Ordering :=
  prodCmp strCmp cmpOfLt

/-- Entries of a dict, keyed and numerically valued, sorted by key. -/
def sortEntries (p : Params) : List (String × Rat) :=
  List.insertionSort (fun a b => strCmp a.1 b.1 ≠ Ordering.gt)
    (p.map (fun kv => (kv.1, kv.2.toQ)))

/-- CPython 2 `dict_compare`: sizes first; for equal-size dicts the
smallest key on which the dicts differ decides, then its values — which
on the numeric-valued dicts appearing here coincides with the
lexicographic order on the key-sorted entry lists. -/
def dictCmp : Params → Params → Ordering :=
  mapCmp (fun p => (p.length, sortEntries p))
    (prodCmp cmpOfLt (listCmp entryCmp))

/-- Python tuple comparison on the `(score, params)` pairs sorted by
`SimpleIPv4Switch.on_ttp_query`. -/
def scoredCmp : (Rat × Params) → (Rat × Params) → Ordering :=
  prodCmp cmpOfLt dictCmp

theorem entryCmp_isTotal : IsTotalCmp entryCmp :=
  prodCmp_isTotal strCmp_isTotal cmpOfLt_isTotal

theorem dictCmp_isTotal : IsTotalCmp dictCmp :=
  mapCmp_isTotal (prodCmp_isTotal cmpOfLt_isTotal
    (listCmp_isTotal entryCmp_isTotal))

theorem scoredCmp_isTotal : IsTotalCmp scoredCmp :=
  prodCmp_isTotal cmpOfLt_isTotal dictCmp_isTotal

/-! ### The switch providers and the message dispatcher -/

/-- Outbound response payloads. -/
inductive RespPayload where
  | version : String → RespPayload
  | ttps : List (String × String) → RespPayload
  | params : Option Params → RespPayload
  | error : String → RespPayload
deriving DecidableEq, Repr

/-- `SimpleIPv4Switch.PARAM_SETS`: the fixed catalog. -/
def PARAM_SETS : List ((String × String) × List Params) := [
  (("org.opennetworking/ttps/IPV4", "1.0"),
    [[("IPV4 table size", .int 1000), ("MAC table size", .int 10000)],
     [("IPV4 table size", .int 5000), ("MAC table size", .int 5000)],
     [("IPV4 table size", .int 10000), ("MAC table size", .int 2000)]]),
  (("org.opennetworking/ttps/IPV4", "2.0"),
    [[("IPV4 table size", .int 1000), ("MAC table size", .int 10000),
      ("Feature X", .bool true)],
     [("IPV4 table size", .int 5000), ("MAC table size", .int 5000),
      ("Feature X", .bool false)],
     [("IPV4 table size", .int 4000), ("MAC table size", .int 4000),
      ("Feature X", .bool true)],
     [("IPV4 table size", .int 10000), ("MAC table size", .int 2000),
      ("Feature X", .bool true)]])]

/-- `self.PARAM_SETS[ttp]`: raises `KeyError` on an unknown
(name, version) pair; the key is rendered as "name,version". -/
def catalogGet (ttp : String × String) : Except PyErr (List Params) :=
  match PARAM_SETS.find? (fun e => e.1 = ttp) with
  | some e => .ok e.2
  | none => .error (.keyError (ttp.1 ++ "," ++ ttp.2))

/-- The list comprehension filtering the catalog entry by
`constraints_met` (a fault in any check aborts the query). -/
def filterMet (cons : List Constraint) :
    List Params → Except PyErr (List Params)
  | [] => .ok []
  | p :: rest => do
      let b ← constraints_met cons p
      let tail ← filterMet cons rest
      pure (if b then p :: tail else tail)

/-- The list comprehension scoring each surviving candidate. -/
def scoreAll (cons : List Constraint) :
    List Params → Except PyErr (List (Rat × Params))
  | [] => .ok []
  | p :: rest => do
      let s ← score cons p
      let tail ← scoreAll cons rest
      pure ((s, p) :: tail)

/-- `SimpleIPv4Switch.on_ttp_query`: look up the catalog entry, filter
by `constraints_met`, score the survivors, sort `(score, params)` pairs
descending under Python tuple order and return the head; the
`IndexError` from an empty survivor list is caught and answered with
`ttp_query_resp_err`. -/
def SimpleIPv4Switch_on_ttp_query (ttp_name ttp_version : String)
    (cons : List Constraint) : Except PyErr (String × RespPayload) := do
  let sets ← catalogGet (ttp_name, ttp_version)
  let avail ← filterMet cons sets
  let scored ← scoreAll cons avail
  match argmaxC scoredCmp scored with
  | some sp => pure ("ttp_query_resp", .params (some sp.2))
  | none => pure ("ttp_query_resp_err", .error "No match")

/-- The `max`-clamping step of a bound constraint:
`params[param] = min(cons["max"], params[param])` when `max` is
present. -/
def clampMax (max? : Option PyVal) (pname : String) (p : Params) :
    Except PyErr Params :=
  match max? with
  | some m => do
      let cur ← dictGet p pname
      pure (dictSet p pname (pyMin m cur))
  | none => pure p

/-- The `best`-target lowering step: `params[param] = cons["value"]`
when the target is below the current value. -/
def bestLower (c : Constraint) (pname : String) (p1 : Params) :
    Except PyErr Params :=
  if c.type = "best" then do
    let tv ← req c.value "value"
    let cur ← dictGet p1 pname
    if tv.toQ < cur.toQ then pure (dictSet p1 pname tv) else pure p1
  else
    pure p1

/-- The ratio upper-bound step:
`params[param2] = min(v2, v1 / cons["max"])` when `max` is present. -/
def ratioClampMax (max? : Option PyVal) (n2 : String) (v1 v2 : PyVal)
    (p : Params) : Except PyErr Params :=
  match max? with
  | some m => do
      let mv2 ← pyDiv v1 m
      pure (dictSet p n2 (pyMin v2 mv2))
  | none => pure p

/-- The ratio lower-bound step: when `min` is present the source reads
`cons["max"]` (not `cons["min"]`) and assigns
`params[param1] = min(v1, v2 * cons["max"])`. -/
def ratioClampMin (min? max? : Option PyVal) (n1 : String)
    (v1 v2 : PyVal) (p1 : Params) : Except PyErr Params :=
  match min? with
  | some _ => do
      let m ← req max? "max"
      pure (dictSet p1 n1 (pyMin v1 (pyMul v2 m)))
  | none => pure p1

/-- One constraint of `VariableIPv4Switch.apply_constraints`: clamp the
parameter down to a `max` bound, lower it to a smaller `best` target;
for ratio constraints clamp `param2` down when `max` is present, and —
when `min` is present — lower `param1` using the `max` field (the source
reads `cons["max"]` in the `min` branch). -/
def applyCons1 (c : Constraint) (p : Params) : Except PyErr Params := do
  if c.type = "max" ∨ c.type = "min" ∨ c.type = "best" then
    let pname ← req c.param "param"
    let p1 ← clampMax c.max pname p
    bestLower c pname p1
  else if c.type = "ratio" then
    let n1 ← req c.param1 "param1"
    let n2 ← req c.param2 "param2"
    let v1 ← dictGet p n1
    let v2 ← dictGet p n2
    let p1 ← ratioClampMax c.max n2 v1 v2 p
    ratioClampMin c.min c.max n1 v1 v2 p1
  else
    pure p

/-- `VariableIPv4Switch.apply_constraints` over the whole list. -/
def apply_constraints : List Constraint → Params → Except PyErr Params
  | [], p => .ok p
  | c :: rest, p => do
      let p1 ← applyCons1 c p
      apply_constraints rest p1

/-- The enumerated MAC-table sizes: `xrange(0, 10000, 100)`. -/
def macSplits : List Int := (List.range 100).map (fun i => 100 * (i : Int))

/-- The raw parameter set synthesized for one split of the 10,000
memory slots. -/
def mkSplit (num_macs : Int) : Params :=
  [("IPV4 table size", .int (10000 - num_macs)),
   ("MAC table size", .int num_macs)]

/-- Loop body of `VariableIPv4Switch.on_ttp_query`: adjust the raw
split, re-check feasibility, and keep the candidate on a strict score
improvement (ties keep the earlier split). -/
def varStep (cons : List Constraint) (best : Option (Rat × Params))
    (num_macs : Int) : Except PyErr (Option (Rat × Params)) := do
  let params ← apply_constraints cons (mkSplit num_macs)
  let met ← constraints_met cons params
  if met then
    let s ← score cons params
    match best with
    | none => pure (some (s, params))
    | some (bs, bp) =>
        if bs < s then pure (some (s, params)) else pure (some (bs, bp))
  else
    pure best

/-- `VariableIPv4Switch.on_ttp_query`: enumerate the splits and always
answer `ttp_query_resp`, with `params = None` when no candidate was
feasible. -/
def VariableIPv4Switch_on_ttp_query (cons : List Constraint) :
    Except PyErr (String × RespPayload) := do
  let best ← macSplits.foldlM (varStep cons) none
  pure ("ttp_query_resp", .params (best.map (fun sp => sp.2)))

/-- The shared version set of `on_ttp_begin`: parsed supported versions
intersected with parsed offered versions (Python set semantics). -/
def sharedVersions (supported offered : List String) :
    List (List VerComp) :=
  ((supported.map parse_version).dedup).filter
    (fun v => v ∈ (offered.map parse_version).dedup)

/-- `Switch.on_ttp_begin`: answers with the highest shared version
(descending sort, then head); an empty intersection raises `IndexError`
from `shared_versions[0]`. -/
def on_ttp_begin (supported : List String) (offered : List String) :
    Except PyErr (String × RespPayload) :=
  match argmaxC verCmp (sharedVersions supported offered) with
  | some m => .ok ("ttp_version_resp", .version (format_version m))
  | none => .error .indexError

/-- Switch-held state: the class attributes of a switch object (no
handler assigns any attribute). -/
structure SwitchState where
  versions_supported : List String
  ttps_supported : List (String × String)
deriving DecidableEq, Repr

/-- The two concrete switch classes. -/
inductive Variant where
  | simpleIPv4
  | variableIPv4
deriving DecidableEq, Repr

/-- Inbound message payload; absent fields raise `KeyError` when a
handler reads them. -/
structure Payload where
  versions : Option (List String) := none
  ttp_name : Option String := none
  ttp_version : Option String := none
  param_constraints : Option (List Constraint) := none
deriving DecidableEq, Repr

/-- `Switch.on_list_ttps`. -/
def on_list_ttps (st : SwitchState) : Except PyErr (String × RespPayload) :=
  .ok ("list_ttps_resp", .ttps st.ttps_supported)

/-- `Switch.handle_msg`: resolves `"on_" + msg_type`; an unknown kind
raises `AttributeError` from `getattr` (the `except KeyError` clause in
the source never fires for it).  The state component of the result is
the switch state after the call — every path returns it unchanged. -/
def handle_msg (variant : Variant) (st : SwitchState) (msg_type : String)
    (payload : Payload) :
    SwitchState × Except PyErr (String × RespPayload) :=
  if msg_type = "ttp_begin" then
    (st, do
      let offered ← req payload.versions "versions"
      on_ttp_begin st.versions_supported offered)
  else if msg_type = "list_ttps" then
    (st, on_list_ttps st)
  else if msg_type = "ttp_query" then
    (st,
      match variant with
      | .simpleIPv4 => do
          let name ← req payload.ttp_name "ttp_name"
          let ver ← req payload.ttp_version "ttp_version"
          let cons ← req payload.param_constraints "param_constraints"
          SimpleIPv4Switch_on_ttp_query name ver cons
      | .variableIPv4 => do
          let cons ← req payload.param_constraints "param_constraints"
          VariableIPv4Switch_on_ttp_query cons)
  else
    (st, .error (.attributeError ("on_" ++ msg_type)))

/-- `SimpleIPv4Switch` class attributes. -/
def simpleSwitch : SwitchState :=
  { versions_supported := ["1.0"],
    ttps_supported := [("org.opennetworking/ttps/IPV4", "2.0"),
      ("org.opennetworking/ttps/IPV4", "1.0"),
      ("com.metaswitch/ttps/PrivateSwitch", "2.0")] }

/-- `VariableIPv4Switch` class attributes. -/
def variableSwitch : SwitchState :=
  { versions_supported := ["1.0"],
    ttps_supported := [("org.opennetworking/ttps/IPV4", "1.0")] }

/-! ### Specification-side definitions and concrete inputs for the claims -/

/-- The constraint of claim C9: a ratio constraint with a lower bound
but no upper bound. -/
def ratioMinOnly : Constraint :=
  { type := "ratio", param1 := some "IPV4 table size",
    param2 := some "MAC table size", min := some (.float (1/2)),
    ratio := some (.float 1), score := some (.int 1) }

/-- A constraint no split of the 10,000 budget can meet: it requires
"IPV4 table size" to be at least 20000. -/
def unsatisfiableCons : List Constraint :=
  [{ type := "max", param := some "IPV4 table size",
     min := some (.int 20000), score := some (.int 1) }]

/-- The MAC-heavy candidate of catalog entry ("…/IPV4", "1.0"). -/
def macHeavy1 : Params :=
  [("IPV4 table size", .int 1000), ("MAC table size", .int 10000)]

/-- The balanced candidate of catalog entry ("…/IPV4", "1.0"). -/
def balanced1 : Params :=
  [("IPV4 table size", .int 5000), ("MAC table size", .int 5000)]

/-- The IP-heavy candidate of catalog entry ("…/IPV4", "1.0"). -/
def ipHeavy1 : Params :=
  [("IPV4 table size", .int 10000), ("MAC table size", .int 2000)]

/-- The per-constraint score contribution of the specification text,
parametrized over the quotient taken by a ratio constraint
(`dv v1 v2` is "the ratio", oriented value(param2)/value(param1)):
`+ value(param) * weight` for `max`, `- value(param) * weight` for
`min`, `+ weight` iff the value equals a boolean `best` target,
`+ |value(param) - target| * weight` for a non-boolean `best` target
(the literal deviation-rewarding formula), and
`- |ratio - target| * weight` for a ratio constraint.  `none` models a
field access that would fault. -/
def contribWith (dv : PyVal → PyVal → Option Rat) (c : Constraint)
    (p : Params) : Option Rat :=
  if c.type = "max" then do
    let pname ← c.param
    let val ← lookupV p pname
    let w ← c.score
    pure (val.toQ * w.toQ)
  else if c.type = "min" then do
    let pname ← c.param
    let val ← lookupV p pname
    let w ← c.score
    pure (-(val.toQ * w.toQ))
  else if c.type = "best" then do
    let pname ← c.param
    let val ← lookupV p pname
    let tv ← c.value
    match tv with
    | .bool b =>
        if val.toQ = (PyVal.bool b).toQ then do
          let w ← c.score
          pure w.toQ
        else
          pure 0
    | _ => do
        let w ← c.score
        pure (|val.toQ - tv.toQ| * w.toQ)
  else if c.type = "ratio" then do
    let n1 ← c.param1
    let n2 ← c.param2
    let v1 ← lookupV p n1
    let v2 ← lookupV p n2
    let r ← dv v1 v2
    let tr ← c.ratio
    let w ← c.score
    pure (-(|r - tr.toQ| * w.toQ))
  else
    some 0

/-- The quotient the code takes: Python 2 `v2 / v1` (floor division
when both values are int-like). -/
def pyQuot (v1 v2 : PyVal) : Option Rat :=
  match pyDiv v2 v1 with
  | .ok r => some r.toQ
  | .error _ => none

/-- The quotient claim C3 states: the real-valued
value(param2)/value(param1). -/
def realQuot (v1 v2 : PyVal) : Option Rat :=
  if v1.toQ = 0 then none else some (v2.toQ / v1.toQ)

/-- Per-constraint contribution with the Python 2 quotient — the
formula the code actually computes. -/
def contribSpec : Constraint → Params → Option Rat := contribWith pyQuot

/-- Per-constraint contribution exactly as claim C3 words it, with the
real-valued quotient. -/
def contribReal : Constraint → Params → Option Rat := contribWith realQuot

/-- The ratio constraint of the C3 counterexample: target 3/2,
weight 1. -/
def ratioFloorCons : Constraint :=
  { type := "ratio", param1 := some "a", param2 := some "b",
    ratio := some (.float (3/2)), score := some (.int 1) }

/-- Parameters for the C3 counterexample: a = 2, b = 3 (both ints, so
Python 2 computes b / a by floor division). -/
def ratioFloorParams : Params := [("a", .int 2), ("b", .int 3)]

/-- A plain `max` constraint used by the C3 witness. -/
def maxContribCons : Constraint :=
  { type := "max", param := some "a", score := some (.int 2) }

/-- Claim C4's notion of a constraint rejecting a parameter set: a
bound constraint (`max`/`min`/`best`) rejects when a present lower
bound exceeds the parameter value or a present upper bound is below it;
a ratio constraint rejects when the real-valued quotient
value(param2)/value(param1) falls below a present lower bound or above
a present upper bound; any other constraint never rejects.  In
particular a `best`-kind constraint with neither bound never rejects. -/
def rejects (c : Constraint) (p : Params) : Prop :=
  ((c.type = "max" ∨ c.type = "min" ∨ c.type = "best") ∧
    ∃ pname val, c.param = some pname ∧ lookupV p pname = some val ∧
      ((∃ lo, c.min = some lo ∧ val.toQ < lo.toQ) ∨
       (∃ hi, c.max = some hi ∧ hi.toQ < val.toQ))) ∨
  (c.type = "ratio" ∧
    ∃ n1 n2 v1 v2, c.param1 = some n1 ∧ c.param2 = some n2 ∧
      lookupV p n1 = some v1 ∧ lookupV p n2 = some v2 ∧
      ((∃ lo, c.min = some lo ∧ v2.toQ / v1.toQ < lo.toQ) ∨
       (∃ hi, c.max = some hi ∧ hi.toQ < v2.toQ / v1.toQ)))

/-- Claim C8's relation between the dicts after and before the
adjustment pass: both hold exactly the same keys, and every value after
the pass is numerically less than or equal to its value before it. -/
def ParamsLe (q p : Params) : Prop :=
  (∀ k, (lookupV q k).isSome ↔ (lookupV p k).isSome) ∧
  (∀ k v0 v1, lookupV p k = some v0 → lookupV q k = some v1 →
    v1.toQ ≤ v0.toQ)

/-- The clamping constraint of the C8 witness. -/
def clampCons : Constraint :=
  { type := "max", param := some "a", max := some (.int 3) }

/-! ### Helper lemmas about `Except` computations -/

theorem pureE_eq_ok {a : α} : (pure a : Except ε α) = .ok a := rfl

theorem bindE_ok {x : Except ε α} {f : α → Except ε β} {r : β} :
    (x >>= f) = .ok r ↔ ∃ a, x = .ok a ∧ f a = .ok r := by
  cases x with
  | ok a =>
      constructor
      · intro h
        exact ⟨a, rfl, h⟩
      · intro ⟨b, hb, hf⟩
        cases hb
        exact hf
  | error e =>
      constructor
      · intro h
        exact absurd h (by intro hx; cases hx)
      · intro ⟨b, hb, _⟩
        cases hb

theorem bindE_ok_left {a : α} {f : α → Except ε β} :
    ((Except.ok a : Except ε α) >>= f) = f a := rfl

theorem bindE_error_left {e : ε} {f : α → Except ε β} :
    ((Except.error e : Except ε α) >>= f) = .error e := rfl

/-! ### Claim theorems -/

/-- C9: a ratio constraint carrying a lower bound but no upper bound
makes the budgeted-search adjustment pass fault with a missing-key
(`KeyError "max"`) lookup — the lower-bound branch reads the absent
upper-bound field — and a `ttp_query` carrying it fails the same way
instead of adjusting toward the lower bound. -/
theorem c9_ratio_min_reads_absent_max :
    apply_constraints [ratioMinOnly] (mkSplit 0) =
      .error (.keyError "max") ∧
    VariableIPv4Switch_on_ttp_query [ratioMinOnly] =
      .error (.keyError "max") := by
  decide

/-- C6: a message kind outside the fixed handler set
(`ttp_begin`, `list_ttps`, `ttp_query`) fails with an `AttributeError`
naming the unknown kind (`"on_" + kind`), returns no response, and
leaves the switch-held state unchanged. -/
theorem c6_unknown_kind_dispatch :
    ∀ (variant : Variant) (st : SwitchState) (kind : String)
      (payload : Payload),
      kind ≠ "ttp_begin" → kind ≠ "list_ttps" → kind ≠ "ttp_query" →
      handle_msg variant st kind payload =
        (st, .error (.attributeError ("on_" ++ kind))) := by
  intro variant st kind payload h1 h2 h3
  simp [handle_msg, h1, h2, h3]

/-- Witness for C6 at the concrete kind `"not_a_real_kind"`. -/
theorem c6_unknown_kind_dispatch_witness :
    handle_msg .simpleIPv4 simpleSwitch "not_a_real_kind" {} =
      (simpleSwitch, .error (.attributeError "on_not_a_real_kind")) :=
  c6_unknown_kind_dispatch .simpleIPv4 simpleSwitch "not_a_real_kind" {}
    (by decide) (by decide) (by decide)

/-- C2 counterexample: on a constraint list no split can meet, the
budgeted-search provider completes and answers the non-error kind
`ttp_query_resp` carrying `params = None` — there is no `NoMatchError`
(`ttp_query_resp_err`) response, refuting the claim as stated. -/
theorem c2_no_match_yields_none_not_error :
    VariableIPv4Switch_on_ttp_query unsatisfiableCons =
      .ok ("ttp_query_resp", .params none) ∧
    "ttp_query_resp" ≠ "ttp_query_resp_err" := by
  constructor
  · decide
  · decide

theorem filterMet_sound {cons : List Constraint} :
    ∀ {sets avail : List Params}, filterMet cons sets = .ok avail →
      ∀ p ∈ avail, p ∈ sets ∧ constraints_met cons p = .ok true := by
  intro sets
  induction sets with
  | nil =>
      intro avail h p hp
      cases h
      cases hp
  | cons q rest ih =>
      intro avail h p hp
      rw [filterMet] at h
      rcases bindE_ok.mp h with ⟨b, hb, h2⟩
      rcases bindE_ok.mp h2 with ⟨tail, htail, h3⟩
      cases h3
      cases b with
      | true =>
          rcases List.mem_cons.mp hp with rfl | hp'
          · exact ⟨List.mem_cons_self _ _, hb⟩
          · have := ih htail p hp'
            exact ⟨List.mem_cons_of_mem _ this.1, this.2⟩
      | false =>
          have := ih htail p hp
          exact ⟨List.mem_cons_of_mem _ this.1, this.2⟩

theorem scoreAll_sound {cons : List Constraint} :
    ∀ {avail : List Params} {scored : List (Rat × Params)},
      scoreAll cons avail = .ok scored →
      ∀ sp ∈ scored, sp.2 ∈ avail ∧ score cons sp.2 = .ok sp.1 := by
  intro avail
  induction avail with
  | nil =>
      intro scored h sp hsp
      cases h
      cases hsp
  | cons q rest ih =>
      intro scored h sp hsp
      rw [scoreAll] at h
      rcases bindE_ok.mp h with ⟨s, hs, h2⟩
      rcases bindE_ok.mp h2 with ⟨tail, htail, h3⟩
      cases h3
      rcases List.mem_cons.mp hsp with rfl | hsp'
      · exact ⟨List.mem_cons_self _ _, hs⟩
      · have := ih htail sp hsp'
        exact ⟨List.mem_cons_of_mem _ this.1, this.2⟩

theorem scoreAll_ok_nil {cons : List Constraint} :
    ∀ {avail : List Params}, scoreAll cons avail = .ok [] → avail = [] := by
  intro avail h
  cases avail with
  | nil => rfl
  | cons q rest =>
      rw [scoreAll] at h
      rcases bindE_ok.mp h with ⟨s, _, h2⟩
      rcases bindE_ok.mp h2 with ⟨tail, _, h3⟩
      cases h3

/-- C10: a `ttp_query` to the fixed-catalog provider for a
(ttpName, ttpVersion) pair not in `PARAM_SETS` raises an uncaught
`KeyError` instead of answering `ttp_query_resp_err`; the structured
error response arises only for a known catalog key whose candidates all
fail the constraints. -/
theorem c10_unknown_ttp_keyerror :
    (∀ name ver cons,
        PARAM_SETS.find? (fun e => e.1 = (name, ver)) = none →
        SimpleIPv4Switch_on_ttp_query name ver cons =
          .error (.keyError (name ++ "," ++ ver))) ∧
    (∀ name ver cons r,
        SimpleIPv4Switch_on_ttp_query name ver cons =
          .ok ("ttp_query_resp_err", r) →
        ∃ sets, catalogGet (name, ver) = .ok sets ∧
          filterMet cons sets = .ok []) := by
  constructor
  · intro name ver cons h
    rw [SimpleIPv4Switch_on_ttp_query]
    rw [catalogGet, h]
    rfl
  · intro name ver cons r h
    rw [SimpleIPv4Switch_on_ttp_query] at h
    rcases bindE_ok.mp h with ⟨sets, hcat, h2⟩
    rcases bindE_ok.mp h2 with ⟨avail, hfil, h3⟩
    rcases bindE_ok.mp h3 with ⟨scored, hsc, h4⟩
    cases hm : argmaxC scoredCmp scored with
    | some sp =>
        rw [hm] at h4
        have : ("ttp_query_resp", RespPayload.params (some sp.2)) =
            ("ttp_query_resp_err", r) := by
          exact Except.ok.inj h4
        have hfst : ("ttp_query_resp" : String) = "ttp_query_resp_err" :=
          congrArg Prod.fst this
        exact absurd hfst (by decide)
    | none =>
        have hnil : scored = [] := by
          cases scored with
          | nil => rfl
          | cons a l => rw [argmaxC] at hm; cases hm
        rw [hnil] at hsc
        have : avail = [] := scoreAll_ok_nil hsc
        rw [this] at hfil
        exact ⟨sets, hcat, hfil⟩

/-- Witness for C10 at a concrete unknown catalog key. -/
theorem c10_unknown_ttp_keyerror_witness :
    SimpleIPv4Switch_on_ttp_query "no.such/ttp" "9.9" [] =
      .error (.keyError "no.such/ttp,9.9") :=
  c10_unknown_ttp_keyerror.1 "no.such/ttp" "9.9" [] (by decide)

theorem varStep_ok {cons : List Constraint} {acc acc1 : Option (Rat × Params)}
    {m : Int} (h : varStep cons acc m = .ok acc1)
    (hacc : ∀ s p, acc = some (s, p) → constraints_met cons p = .ok true) :
    (∀ s p, acc1 = some (s, p) → constraints_met cons p = .ok true) ∧
    (acc1 = none → acc = none) ∧
    (acc1 = none → ∃ q, apply_constraints cons (mkSplit m) = .ok q ∧
      constraints_met cons q = .ok false) := by
  rw [varStep] at h
  rcases bindE_ok.mp h with ⟨q, happ, h2⟩
  rcases bindE_ok.mp h2 with ⟨met, hmet, h3⟩
  cases met with
  | false =>
      have hacc1 : acc1 = acc := (Except.ok.inj h3).symm
      subst hacc1
      exact ⟨hacc, fun hn => hn, fun _ => ⟨q, happ, hmet⟩⟩
  | true =>
      rcases bindE_ok.mp h3 with ⟨s, hs, h4⟩
      cases acc with
      | none =>
          have hacc1 : acc1 = some (s, q) := (Except.ok.inj h4).symm
          subst hacc1
          refine ⟨?_, ?_, ?_⟩
          · intro s' p' h'
            have hp : p' = q := congrArg (fun o => (Option.getD o (s, q)).2)
              h'.symm
            rw [hp]
            exact hmet
          · intro h'
            cases h'
          · intro h'
            cases h'
      | some sp =>
          obtain ⟨bs, bp⟩ := sp
          have h4' : (if bs < s then
              (pure (some (s, q)) : Except PyErr (Option (Rat × Params)))
              else pure (some (bs, bp))) = .ok acc1 := h4
          by_cases hlt : bs < s
          · rw [if_pos hlt] at h4'
            have hacc1 : acc1 = some (s, q) := (Except.ok.inj h4').symm
            subst hacc1
            refine ⟨?_, ?_, ?_⟩
            · intro s' p' h'
              have hp : p' = q := congrArg
                (fun o => (Option.getD o (s, q)).2) h'.symm
              rw [hp]
              exact hmet
            · intro h'
              cases h'
            · intro h'
              cases h'
          · rw [if_neg hlt] at h4'
            have hacc1 : acc1 = some (bs, bp) := (Except.ok.inj h4').symm
            subst hacc1
            refine ⟨?_, ?_, ?_⟩
            · intro s' p' h'
              have hp : p' = bp := congrArg
                (fun o => (Option.getD o (bs, bp)).2) h'.symm
              rw [hp]
              exact hacc bs bp rfl
            · intro h'
              cases h'
            · intro h'
              cases h'

theorem varStep_mem {cons : List Constraint} {acc acc1 : Option (Rat × Params)}
    {m : Int} (h : varStep cons acc m = .ok acc1) :
    ∀ s p, acc1 = some (s, p) →
      acc1 = acc ∨ apply_constraints cons (mkSplit m) = .ok p := by
  rw [varStep] at h
  rcases bindE_ok.mp h with ⟨q, happ, h2⟩
  rcases bindE_ok.mp h2 with ⟨met, hmet, h3⟩
  cases met with
  | false =>
      intro s p hp
      exact Or.inl (Except.ok.inj h3).symm
  | true =>
      rcases bindE_ok.mp h3 with ⟨sc, hs, h4⟩
      cases acc with
      | none =>
          intro s p hp
          have hacc1 : acc1 = some (sc, q) := (Except.ok.inj h4).symm
          have he : some (sc, q) = some (s, p) := hacc1.symm.trans hp
          have hpq : q = p := congrArg (fun o => (Option.getD o (sc, q)).2) he
          rw [← hpq]
          exact Or.inr happ
      | some sp =>
          obtain ⟨bs, bp⟩ := sp
          have h4' : (if bs < sc then
              (pure (some (sc, q)) : Except PyErr (Option (Rat × Params)))
              else pure (some (bs, bp))) = .ok acc1 := h4
          by_cases hlt : bs < sc
          · rw [if_pos hlt] at h4'
            intro s p hp
            have hacc1 : acc1 = some (sc, q) := (Except.ok.inj h4').symm
            have he : some (sc, q) = some (s, p) := hacc1.symm.trans hp
            have hpq : q = p := congrArg (fun o => (Option.getD o (sc, q)).2) he
            rw [← hpq]
            exact Or.inr happ
          · rw [if_neg hlt] at h4'
            intro s p hp
            exact Or.inl (Except.ok.inj h4').symm

theorem varFold_mem {cons : List Constraint} :
    ∀ (ms : List Int) (acc res : Option (Rat × Params)),
      List.foldlM (varStep cons) acc ms = .ok res →
      ∀ s p, res = some (s, p) →
        acc = some (s, p) ∨
        ∃ m ∈ ms, apply_constraints cons (mkSplit m) = .ok p := by
  intro ms
  induction ms with
  | nil =>
      intro acc res h s p hp
      have : acc = res := Except.ok.inj h
      subst this
      exact Or.inl hp
  | cons m rest ih =>
      intro acc res h s p hp
      rw [List.foldlM_cons] at h
      rcases bindE_ok.mp h with ⟨acc1, hstep, hrest⟩
      rcases ih acc1 res hrest s p hp with h1 | ⟨m', hm', h2⟩
      · rcases varStep_mem hstep s p h1 with h2 | h3
        · exact Or.inl (h2.symm.trans h1)
        · exact Or.inr ⟨m, List.mem_cons_self m rest, h3⟩
      · exact Or.inr ⟨m', List.mem_cons_of_mem m hm', h2⟩

theorem varFold_invariant {cons : List Constraint} :
    ∀ (ms : List Int) (acc res : Option (Rat × Params)),
      List.foldlM (varStep cons) acc ms = .ok res →
      (∀ s p, acc = some (s, p) → constraints_met cons p = .ok true) →
      (∀ s p, res = some (s, p) → constraints_met cons p = .ok true) ∧
      (res = none → acc = none ∧ ∀ m ∈ ms, ∃ q,
        apply_constraints cons (mkSplit m) = .ok q ∧
        constraints_met cons q = .ok false) := by
  intro ms
  induction ms with
  | nil =>
      intro acc res h hacc
      have : acc = res := Except.ok.inj h
      subst this
      exact ⟨hacc, fun hres => ⟨hres, by intro m hm; cases hm⟩⟩
  | cons m rest ih =>
      intro acc res h hacc
      rw [List.foldlM_cons] at h
      rcases bindE_ok.mp h with ⟨acc1, hstep, hrest⟩
      obtain ⟨h1, h2, h3⟩ := varStep_ok hstep hacc
      obtain ⟨hres1, hresnone⟩ := ih acc1 res hrest h1
      refine ⟨hres1, ?_⟩
      intro hres
      obtain ⟨hacc1none, hrestinf⟩ := hresnone hres
      refine ⟨h2 hacc1none, ?_⟩
      intro m' hm'
      rcases List.mem_cons.mp hm' with rfl | hm''
      · exact h3 hacc1none
      · exact hrestinf m' hm''

/-- C2 (amended): whenever the budgeted-search provider completes, the
response kind is always `ttp_query_resp`.  A present `params` payload is
the constraint-adjusted form of one of the enumerated splits and
satisfies `constraints_met` against the same constraint list; the
payload is `None` — not a structured `NoMatchError` response — exactly
when every adjusted enumerated split fails the constraints (both
directions are stated).  It never returns a present parameter set that
is infeasible or unrelated to the enumeration. -/
theorem c2_query_resp_feasible_or_none :
    ∀ (cons : List Constraint) (k : String) (pl : RespPayload),
      VariableIPv4Switch_on_ttp_query cons = .ok (k, pl) →
      k = "ttp_query_resp" ∧
      ∃ o : Option Params, pl = .params o ∧
        (∀ p, o = some p →
          (∃ m ∈ macSplits, apply_constraints cons (mkSplit m) = .ok p) ∧
          constraints_met cons p = .ok true) ∧
        (o = none → ∀ m ∈ macSplits, ∃ q,
          apply_constraints cons (mkSplit m) = .ok q ∧
          constraints_met cons q = .ok false) ∧
        ((∀ m ∈ macSplits, ∀ q,
            apply_constraints cons (mkSplit m) = .ok q →
            constraints_met cons q = .ok false) → o = none) := by
  intro cons k pl h
  rw [VariableIPv4Switch_on_ttp_query] at h
  rcases bindE_ok.mp h with ⟨best, hfold, h2⟩
  have hpair := Except.ok.inj h2
  obtain ⟨hP, hnone⟩ := varFold_invariant macSplits none best hfold
    (by intro s p h'; cases h')
  refine ⟨(congrArg Prod.fst hpair).symm, best.map (fun sp => sp.2), ?_,
    ?_, ?_, ?_⟩
  · exact (congrArg Prod.snd hpair).symm
  · intro p hp
    cases best with
    | none => cases hp
    | some sp =>
        obtain ⟨s0, p0⟩ := sp
        have hps : p0 = p := Option.some.inj hp
        rw [← hps]
        refine ⟨?_, hP s0 p0 rfl⟩
        rcases varFold_mem macSplits none (some (s0, p0)) hfold s0 p0 rfl
          with h' | h'
        · cases h'
        · exact h'
  · intro ho m hm
    cases best with
    | some sp => cases ho
    | none => exact (hnone rfl).2 m hm
  · intro hall
    cases best with
    | none => rfl
    | some sp =>
        obtain ⟨s0, p0⟩ := sp
        exfalso
        rcases varFold_mem macSplits none (some (s0, p0)) hfold s0 p0 rfl
          with h' | ⟨m, hm, happ⟩
        · cases h'
        · have htrue := hP s0 p0 rfl
          have hfalse := hall m hm p0 happ
          have hcontr : (Except.ok true : Except PyErr Bool) = .ok false :=
            htrue.symm.trans hfalse
          exact Bool.noConfusion (Except.ok.inj hcontr)

/-- Witness for C2 at the unsatisfiable concrete constraint list. -/
theorem c2_query_resp_feasible_or_none_witness :
    ("ttp_query_resp" : String) = "ttp_query_resp" ∧
    ∃ o : Option Params, (RespPayload.params none) = .params o ∧
      (∀ p, o = some p →
        (∃ m ∈ macSplits,
          apply_constraints unsatisfiableCons (mkSplit m) = .ok p) ∧
        constraints_met unsatisfiableCons p = .ok true) ∧
      (o = none → ∀ m ∈ macSplits, ∃ q,
        apply_constraints unsatisfiableCons (mkSplit m) = .ok q ∧
        constraints_met unsatisfiableCons q = .ok false) ∧
      ((∀ m ∈ macSplits, ∀ q,
          apply_constraints unsatisfiableCons (mkSplit m) = .ok q →
          constraints_met unsatisfiableCons q = .ok false) → o = none) :=
  c2_query_resp_feasible_or_none unsatisfiableCons "ttp_query_resp"
    (.params none) (by decide)

theorem req_ok {o : Option α} {k : String} {a : α} :
    req o k = .ok a ↔ o = some a := by
  cases o <;> simp [req]

theorem dictGet_ok {p : Params} {k : String} {v : PyVal} :
    dictGet p k = .ok v ↔ lookupV p k = some v := by
  rw [dictGet, lookupV]
  cases p.find? (fun kv => kv.1 = k) <;> simp

/-- Each successful `scoreCons` evaluation equals the per-constraint
formula with the Python 2 quotient. -/
theorem scoreCons_contrib {c : Constraint} {p : Params} {x : Rat}
    (h : scoreCons c p = .ok x) : contribSpec c p = some x := by
  rw [scoreCons] at h
  rw [contribSpec, contribWith]
  by_cases h1 : c.type = "max"
  · rw [if_pos (Or.inl h1)] at h
    rcases bindE_ok.mp h with ⟨pname, hpn, h⟩
    rcases bindE_ok.mp h with ⟨val, hval, h⟩
    rw [if_pos h1] at h
    rcases bindE_ok.mp h with ⟨w, hw, h⟩
    rw [if_pos h1]
    simp [req_ok.mp hpn, dictGet_ok.mp hval, req_ok.mp hw, Except.ok.inj h]
  by_cases h2 : c.type = "min"
  · rw [if_pos (Or.inr (Or.inl h2))] at h
    rcases bindE_ok.mp h with ⟨pname, hpn, h⟩
    rcases bindE_ok.mp h with ⟨val, hval, h⟩
    rw [if_neg h1, if_pos h2] at h
    rcases bindE_ok.mp h with ⟨w, hw, h⟩
    rw [if_neg h1, if_pos h2]
    simp [req_ok.mp hpn, dictGet_ok.mp hval, req_ok.mp hw, Except.ok.inj h]
  by_cases h3 : c.type = "best"
  · rw [if_pos (Or.inr (Or.inr h3))] at h
    rcases bindE_ok.mp h with ⟨pname, hpn, h⟩
    rcases bindE_ok.mp h with ⟨val, hval, h⟩
    rw [if_neg h1, if_neg h2] at h
    rcases bindE_ok.mp h with ⟨tv, htv, h⟩
    rw [if_neg h1, if_neg h2, if_pos h3]
    cases tv with
    | bool b =>
        replace h : (if val.toQ = (PyVal.bool b).toQ then
            (do let w ← req c.score "score"; pure w.toQ)
          else pure 0) = Except.ok x := h
        by_cases heq : val.toQ = (PyVal.bool b).toQ
        · rw [if_pos heq] at h
          rcases bindE_ok.mp h with ⟨w, hw, h⟩
          simp [req_ok.mp hpn, dictGet_ok.mp hval, req_ok.mp htv,
            req_ok.mp hw, heq, Except.ok.inj h]
        · rw [if_neg heq] at h
          simp [req_ok.mp hpn, dictGet_ok.mp hval, req_ok.mp htv, heq,
            Except.ok.inj h]
    | int n =>
        rcases bindE_ok.mp h with ⟨w, hw, h⟩
        simp [req_ok.mp hpn, dictGet_ok.mp hval, req_ok.mp htv,
          req_ok.mp hw, Except.ok.inj h]
    | float q =>
        rcases bindE_ok.mp h with ⟨w, hw, h⟩
        simp [req_ok.mp hpn, dictGet_ok.mp hval, req_ok.mp htv,
          req_ok.mp hw, Except.ok.inj h]
  by_cases h4 : c.type = "ratio"
  · rw [if_neg (by simp [h1, h2, h3]), if_pos h4] at h
    rcases bindE_ok.mp h with ⟨n1, hn1, h⟩
    rcases bindE_ok.mp h with ⟨n2, hn2, h⟩
    rcases bindE_ok.mp h with ⟨v1, hv1, h⟩
    rcases bindE_ok.mp h with ⟨v2, hv2, h⟩
    rcases bindE_ok.mp h with ⟨r, hr, h⟩
    rcases bindE_ok.mp h with ⟨tr, htr, h⟩
    rcases bindE_ok.mp h with ⟨w, hw, h⟩
    have hq : pyQuot v1 v2 = some r.toQ := by
      rw [pyQuot, hr]
    rw [if_neg h1, if_neg h2, if_neg h3, if_pos h4]
    simp [req_ok.mp hn1, req_ok.mp hn2, dictGet_ok.mp hv1,
      dictGet_ok.mp hv2, req_ok.mp htr, req_ok.mp hw, hq, Except.ok.inj h]
  · rw [if_neg (by simp [h1, h2, h3]), if_neg h4] at h
    rw [if_neg h1, if_neg h2, if_neg h3, if_neg h4]
    rw [← Except.ok.inj h]

/-- C3 (amended): every successful `score` evaluation is exactly the
sum over the constraints of the claimed per-constraint terms, with one
correction: the ratio of a ratio constraint is the Python 2 quotient
`value(param2) / value(param1)` — floor division when both values are
ints — not the real-valued quotient. -/
theorem c3_score_sums_contribs :
    ∀ (cons : List Constraint) (p : Params) (s : Rat),
      score cons p = .ok s →
      ∃ l, List.mapM (fun c => contribSpec c p) cons = some l ∧
        s = l.sum := by
  intro cons
  induction cons with
  | nil =>
      intro p s h
      have : (0 : Rat) = s := Except.ok.inj h
      exact ⟨[], rfl, by simp [← this]⟩
  | cons c rest ih =>
      intro p s h
      rw [score] at h
      rcases bindE_ok.mp h with ⟨x, hx, h⟩
      rcases bindE_ok.mp h with ⟨srest, hrest, h⟩
      have hs := Except.ok.inj h
      obtain ⟨l, hl, hsum⟩ := ih p srest hrest
      refine ⟨x :: l, ?_, ?_⟩
      · rw [List.mapM_cons, scoreCons_contrib hx, hl]
        rfl
      · rw [List.sum_cons, ← hsum, ← hs]

/-- Witness for C3 at a concrete `max` constraint. -/
theorem c3_score_sums_contribs_witness :
    ∃ l, List.mapM
        (fun c => contribSpec c [("a", PyVal.int 3)])
        [maxContribCons] = some l ∧ (6 : Rat) = l.sum :=
  c3_score_sums_contribs [maxContribCons] [("a", PyVal.int 3)] 6 (by
    norm_num +decide [score, scoreCons, maxContribCons, req, dictGet,
      lookupV, PyVal.toQ, bindE_ok_left, pureE_eq_ok])

/-- C3 counterexample: with integer parameters a = 2, b = 3 and a ratio
constraint targeting 3/2 with weight 1, the code scores
`-|3 fdiv 2 - 3/2| * 1 = -1/2` (Python 2 floor division of the ints),
while the claimed real-quotient formula yields 0. -/
theorem c3_ratio_floor_division_cex :
    score [ratioFloorCons] ratioFloorParams = .ok (-(1/2) : Rat) ∧
    contribReal ratioFloorCons ratioFloorParams = some 0 ∧
    ((-(1/2) : Rat) ≠ 0) := by
  refine ⟨?_, ?_, by norm_num⟩
  · norm_num +decide [score, scoreCons, ratioFloorCons, ratioFloorParams,
      req, dictGet, lookupV, pyDiv, PyVal.toQ, PyVal.isIntLike, PyVal.toZ,
      bindE_ok_left, pureE_eq_ok, show Int.fdiv 3 2 = 1 from by decide]
  · norm_num +decide [contribReal, contribWith, realQuot, ratioFloorCons,
      ratioFloorParams, lookupV, PyVal.toQ, Option.some_bind]

theorem hiCheck_iff {hi? : Option PyVal} {x : Rat} {b : Bool}
    (h : hiCheck hi? x = .ok b) :
    b = true ↔ ∃ hi, hi? = some hi ∧ hi.toQ < x := by
  cases hi? with
  | some hi =>
      rw [hiCheck] at h
      have hb : b = decide (hi.toQ < x) := (Except.ok.inj h).symm
      subst hb
      constructor
      · intro hd
        exact ⟨hi, rfl, of_decide_eq_true hd⟩
      · intro ⟨hi', hhi', hgt⟩
        cases Option.some.inj hhi'
        exact decide_eq_true hgt
  | none =>
      rw [hiCheck] at h
      have hb : b = false := (Except.ok.inj h).symm
      subst hb
      constructor
      · intro hd
        cases hd
      · intro ⟨hi', hhi', _⟩
        cases hhi'

/-- The min/max bound check of `constraints_met`, characterized: it
returns `true` exactly when a present lower bound exceeds `x` or a
present upper bound is below `x`. -/
theorem boundCheck_iff {lo? hi? : Option PyVal} {x : Rat} {b : Bool}
    (h : boundCheck lo? hi? x = .ok b) :
    b = true ↔ ((∃ lo, lo? = some lo ∧ x < lo.toQ) ∨
      (∃ hi, hi? = some hi ∧ hi.toQ < x)) := by
  cases lo? with
  | some lo =>
      rw [boundCheck] at h
      by_cases hlt : x < lo.toQ
      · rw [if_pos hlt] at h
        have hb : b = true := (Except.ok.inj h).symm
        subst hb
        simp only [true_iff]
        exact Or.inl ⟨lo, rfl, hlt⟩
      · rw [if_neg hlt] at h
        rw [hiCheck_iff h]
        constructor
        · intro hd
          exact Or.inr hd
        · intro hr
          rcases hr with ⟨lo', hlo', hlt'⟩ | hd
          · cases Option.some.inj hlo'
            exact absurd hlt' hlt
          · exact hd
  | none =>
      rw [boundCheck] at h
      rw [hiCheck_iff h]
      constructor
      · intro hd
        exact Or.inr hd
      · intro hr
        rcases hr with ⟨lo', hlo', _⟩ | hd
        · cases hlo'
        · exact hd

/-- The ratio `constraints_met` computes is the real-valued quotient
(the `* 1.0` forces true division). -/
theorem pyRatio_ok {v1 v2 r : PyVal}
    (h : pyDiv (pyMul v2 (.float 1)) v1 = .ok r) :
    r.toQ = v2.toQ / v1.toQ := by
  rw [pyMul] at h
  simp only [PyVal.isIntLike, Bool.and_false, Bool.false_eq_true,
    if_false] at h
  rw [pyDiv] at h
  simp only [PyVal.isIntLike, Bool.false_and, Bool.false_eq_true,
    if_false] at h
  by_cases hz : v1.toQ = 0
  · rw [if_pos hz] at h
    cases h
  · rw [if_neg hz] at h
    have := Except.ok.inj h
    rw [← this]
    simp [PyVal.toQ]

/-- Each successful `consViolated` evaluation returns `true` exactly on
a rejecting constraint in the sense of claim C4. -/
theorem consViolated_rejects {c : Constraint} {p : Params} {b : Bool}
    (h : consViolated c p = .ok b) : b = true ↔ rejects c p := by
  rw [consViolated] at h
  by_cases ht : c.type = "max" ∨ c.type = "min" ∨ c.type = "best"
  · rw [if_pos ht] at h
    rcases bindE_ok.mp h with ⟨pname, hpn, h⟩
    rcases bindE_ok.mp h with ⟨val, hval, h⟩
    have hpn' := req_ok.mp hpn
    have hval' := dictGet_ok.mp hval
    have hnr : ¬ c.type = "ratio" := by
      rcases ht with h' | h' | h' <;> rw [h'] <;> decide
    rw [boundCheck_iff h]
    constructor
    · intro hd
      exact Or.inl ⟨ht, pname, val, hpn', hval', hd⟩
    · intro hr
      rcases hr with ⟨_, pn', v', hpn'', hval'', hcase⟩ | ⟨hty, _⟩
      · rw [hpn'] at hpn''
        cases Option.some.inj hpn''
        rw [hval'] at hval''
        cases Option.some.inj hval''
        exact hcase
      · exact absurd hty hnr
  · rw [if_neg ht] at h
    by_cases h4 : c.type = "ratio"
    · rw [if_pos h4] at h
      rcases bindE_ok.mp h with ⟨n1, hn1, h⟩
      rcases bindE_ok.mp h with ⟨n2, hn2, h⟩
      rcases bindE_ok.mp h with ⟨v1, hv1, h⟩
      rcases bindE_ok.mp h with ⟨v2, hv2, h⟩
      rcases bindE_ok.mp h with ⟨r, hr, h⟩
      have hrq := pyRatio_ok hr
      rw [boundCheck_iff h, hrq]
      constructor
      · intro hd
        exact Or.inr ⟨h4, n1, n2, v1, v2, req_ok.mp hn1, req_ok.mp hn2,
          dictGet_ok.mp hv1, dictGet_ok.mp hv2, hd⟩
      · intro hrj
        rcases hrj with ⟨hty, _⟩ | ⟨_, m1, m2, w1, w2, hm1, hm2, hw1,
          hw2, hcase⟩
        · exact absurd hty ht
        · rw [req_ok.mp hn1] at hm1
          cases Option.some.inj hm1
          rw [req_ok.mp hn2] at hm2
          cases Option.some.inj hm2
          rw [dictGet_ok.mp hv1] at hw1
          cases Option.some.inj hw1
          rw [dictGet_ok.mp hv2] at hw2
          cases Option.some.inj hw2
          exact hcase
    · rw [if_neg h4] at h
      have hb : b = false := (Except.ok.inj h).symm
      subst hb
      constructor
      · intro hd
        cases hd
      · intro hr
        rcases hr with ⟨hty, _⟩ | ⟨hty, _⟩
        · exact absurd hty ht
        · exact absurd hty h4

/-- C4: whenever `constraints_met` completes, it returns true iff no
constraint rejects — where a bound constraint rejects on a violated
present lower or upper bound, a ratio constraint rejects on the
real-valued quotient value(param2)/value(param1) violating a present
bound, and a `best`-kind bound constraint with no explicit min or max
never rejects (its target affects only scoring). -/
theorem c4_constraints_met_iff :
    ∀ (cons : List Constraint) (p : Params) (b : Bool),
      constraints_met cons p = .ok b →
      (b = true ↔ ∀ c ∈ cons, ¬ rejects c p) := by
  intro cons
  induction cons with
  | nil =>
      intro p b h
      have hb : b = true := (Except.ok.inj h).symm
      subst hb
      simp
  | cons c rest ih =>
      intro p b h
      rw [constraints_met] at h
      rcases bindE_ok.mp h with ⟨v, hv, h⟩
      have hiff := consViolated_rejects hv
      cases v with
      | true =>
          have hb : b = false := (Except.ok.inj h).symm
          subst hb
          constructor
          · intro hd
            cases hd
          · intro hall
            exact absurd (hiff.mp rfl) (hall c (List.mem_cons_self _ _))
      | false =>
          have hnr : ¬ rejects c p := by
            intro hr
            exact Bool.false_ne_true (hiff.mpr hr)
          rw [ih p b h]
          constructor
          · intro hall c' hc'
            rcases List.mem_cons.mp hc' with rfl | hc''
            · exact hnr
            · exact hall c' hc''
          · intro hall c' hc'
            exact hall c' (List.mem_cons_of_mem _ hc')

/-- Witness for C4 at a concrete bound constraint and parameter set. -/
theorem c4_constraints_met_iff_witness :
    (true = true) ↔ ∀ c ∈ [maxContribCons], ¬ rejects c [("a", PyVal.int 3)] :=
  c4_constraints_met_iff [maxContribCons] [("a", PyVal.int 3)] true
    (by decide)

/-- C1 counterexample: with an empty constraint list every candidate of
("org.opennetworking/ttps/IPV4", "1.0") is feasible with score 0; the
first-seen feasible candidate among those tied is the MAC-heavy set at
the head of the catalog, yet the query returns the IP-heavy set —
Python 2 breaks the score tie by comparing the parameter dicts
themselves, not by catalog order. -/
theorem c1_tie_not_catalog_order_cex :
    SimpleIPv4Switch_on_ttp_query "org.opennetworking/ttps/IPV4" "1.0" [] =
      .ok ("ttp_query_resp", .params (some ipHeavy1)) ∧
    catalogGet ("org.opennetworking/ttps/IPV4", "1.0") =
      .ok [macHeavy1, balanced1, ipHeavy1] ∧
    constraints_met [] macHeavy1 = .ok true ∧
    score [] macHeavy1 = .ok 0 ∧ score [] ipHeavy1 = .ok 0 ∧
    macHeavy1 ≠ ipHeavy1 := by
  decide

/-- C1 (amended): for every catalog key and constraint list on which
the query completes, the fixed-catalog provider filters the candidates
by `constraints_met`; when none survives it answers
`ttp_query_resp_err`, and otherwise it answers with a surviving
candidate maximal under the Python 2 tuple order on (score, dict)
pairs: a strictly higher score wins, score ties are broken by the
Python 2 dict comparison (greatest dict wins), and only candidates tied
on the whole (score, dict) comparison fall back to catalog order
(first seen wins — the strictly-smaller prefix below). -/
theorem c1_best_by_tuple_order :
    ∀ (name ver : String) (cons : List Constraint)
      (r : String × RespPayload),
      SimpleIPv4Switch_on_ttp_query name ver cons = .ok r →
      ∃ sets avail scored,
        catalogGet (name, ver) = .ok sets ∧
        filterMet cons sets = .ok avail ∧
        scoreAll cons avail = .ok scored ∧
        ((avail = [] ∧ r = ("ttp_query_resp_err", .error "No match")) ∨
         (∃ s p l1 l2, r = ("ttp_query_resp", .params (some p)) ∧
            scored = l1 ++ (s, p) :: l2 ∧
            p ∈ sets ∧ constraints_met cons p = .ok true ∧
            score cons p = .ok s ∧
            (∀ x ∈ l1, scoredCmp x (s, p) = .lt) ∧
            (∀ x ∈ scored, scoredCmp x (s, p) ≠ .gt))) := by
  intro name ver cons r h
  rw [SimpleIPv4Switch_on_ttp_query] at h
  rcases bindE_ok.mp h with ⟨sets, hcat, h⟩
  rcases bindE_ok.mp h with ⟨avail, hfil, h⟩
  rcases bindE_ok.mp h with ⟨scored, hsc, h⟩
  refine ⟨sets, avail, scored, hcat, hfil, hsc, ?_⟩
  cases hm : argmaxC scoredCmp scored with
  | none =>
      rw [hm] at h
      have hnil : scored = [] := by
        cases scored with
        | nil => rfl
        | cons a l =>
            rw [argmaxC] at hm
            cases hm
      have havail : avail = [] := scoreAll_ok_nil (hnil ▸ hsc)
      exact Or.inl ⟨havail, (Except.ok.inj h).symm⟩
  | some sp =>
      rw [hm] at h
      obtain ⟨l1, l2, hsplit, hl1, hall⟩ :=
        argmaxC_spec scoredCmp_isTotal scored sp hm
      have hmem : sp ∈ scored := by
        rw [hsplit]
        exact List.mem_append.mpr (Or.inr (List.mem_cons_self _ _))
      obtain ⟨hpavail, hscore⟩ := scoreAll_sound hsc sp hmem
      obtain ⟨hpsets, hpmet⟩ := filterMet_sound hfil sp.2 hpavail
      exact Or.inr ⟨sp.1, sp.2, l1, l2, (Except.ok.inj h).symm, hsplit,
        hpsets, hpmet, hscore, hl1, hall⟩

/-- Witness for C1 at the concrete catalog key
("org.opennetworking/ttps/IPV4", "1.0") with no constraints. -/
theorem c1_best_by_tuple_order_witness :
    ∃ sets avail scored,
      catalogGet ("org.opennetworking/ttps/IPV4", "1.0") = .ok sets ∧
      filterMet [] sets = .ok avail ∧
      scoreAll [] avail = .ok scored ∧
      ((avail = [] ∧
          (("ttp_query_resp", RespPayload.params (some ipHeavy1)) :
            String × RespPayload) =
            ("ttp_query_resp_err", .error "No match")) ∨
       (∃ s p l1 l2,
          (("ttp_query_resp", RespPayload.params (some ipHeavy1)) :
            String × RespPayload) = ("ttp_query_resp", .params (some p)) ∧
          scored = l1 ++ (s, p) :: l2 ∧ p ∈ sets ∧
          constraints_met [] p = .ok true ∧ score [] p = .ok s ∧
          (∀ x ∈ l1, scoredCmp x (s, p) = .lt) ∧
          (∀ x ∈ scored, scoredCmp x (s, p) ≠ .gt))) :=
  c1_best_by_tuple_order "org.opennetworking/ttps/IPV4" "1.0" []
    ("ttp_query_resp", .params (some ipHeavy1)) (by decide)

/-- C5: `ttp_begin` parses the supported and offered version strings,
and when the intersection is non-empty answers `ttp_version_resp` with
the greatest shared version under the version-tuple ordering; an empty
intersection is a hard failure (the uncaught IndexError of
`shared_versions[0]`) producing no version response.  With supported
{1.0} and offered {1.0, 2.0} the chosen version is 1.0; with supported
{1.0, 2.0} and offered {1.0, 2.0} it is 2.0. -/
theorem c5_version_negotiation :
    (∀ (supported offered : List String) (r : String × RespPayload),
        on_ttp_begin supported offered = .ok r →
        ∃ m, r = ("ttp_version_resp", .version (format_version m)) ∧
          m ∈ sharedVersions supported offered ∧
          ∀ v ∈ sharedVersions supported offered, verCmp v m ≠ .gt) ∧
    (∀ supported offered, sharedVersions supported offered = [] →
        on_ttp_begin supported offered = .error .indexError) ∧
    on_ttp_begin ["1.0"] ["1.0", "2.0"] =
      .ok ("ttp_version_resp", .version "1.0") ∧
    on_ttp_begin ["1.0", "2.0"] ["1.0", "2.0"] =
      .ok ("ttp_version_resp", .version "2.0") := by
  refine ⟨?_, ?_, by decide, by decide⟩
  · intro supported offered r h
    rw [on_ttp_begin] at h
    cases hm : argmaxC verCmp (sharedVersions supported offered) with
    | none =>
        rw [hm] at h
        cases h
    | some m =>
        rw [hm] at h
        obtain ⟨l1, l2, hsplit, _, hall⟩ :=
          argmaxC_spec verCmp_isTotal _ m hm
        have hmem : m ∈ sharedVersions supported offered := by
          rw [hsplit]
          exact List.mem_append.mpr (Or.inr (List.mem_cons_self _ _))
        exact ⟨m, (Except.ok.inj h).symm, hmem, hall⟩
  · intro supported offered hempty
    rw [on_ttp_begin, hempty]
    rfl

/-- Witness for C5: no shared version between {1.0} and {3.0} is a hard
IndexError failure. -/
theorem c5_version_negotiation_witness :
    on_ttp_begin ["1.0"] ["3.0"] = .error .indexError :=
  c5_version_negotiation.2.1 ["1.0"] ["3.0"] (by decide)

theorem pyMin_le_left (a b : PyVal) : (pyMin a b).toQ ≤ a.toQ := by
  rw [pyMin]
  by_cases h : b.toQ < a.toQ
  · rw [if_pos h]
    exact le_of_lt h
  · rw [if_neg h]

theorem pyMin_le_right (a b : PyVal) : (pyMin a b).toQ ≤ b.toQ := by
  rw [pyMin]
  by_cases h : b.toQ < a.toQ
  · rw [if_pos h]
  · rw [if_neg h]
    exact le_of_not_lt h

theorem lookupV_cons_eq {kv : String × PyVal} {rest : Params}
    {k' : String} (h : kv.1 = k') :
    lookupV (kv :: rest) k' = some kv.2 := by
  rw [lookupV, List.find?_cons_of_pos]
  · rfl
  · simp [h]

theorem lookupV_cons_ne {kv : String × PyVal} {rest : Params}
    {k' : String} (h : ¬ kv.1 = k') :
    lookupV (kv :: rest) k' = lookupV rest k' := by
  rw [lookupV, List.find?_cons_of_neg]
  · rfl
  · simp [h]

theorem lookupV_dictSet_self (p : Params) (k : String) (v : PyVal) :
    lookupV (dictSet p k v) k = some v := by
  induction p with
  | nil =>
      rw [dictSet]
      exact lookupV_cons_eq rfl
  | cons kv rest ih =>
      rw [dictSet]
      by_cases h : kv.1 = k
      · rw [if_pos h]
        exact lookupV_cons_eq rfl
      · rw [if_neg h]
        rw [lookupV_cons_ne h]
        exact ih

theorem lookupV_dictSet_ne (p : Params) {k k' : String} (v : PyVal)
    (h : k' ≠ k) : lookupV (dictSet p k v) k' = lookupV p k' := by
  induction p with
  | nil =>
      rw [dictSet]
      rw [lookupV_cons_ne (fun hx => h hx.symm)]
  | cons kv rest ih =>
      rw [dictSet]
      by_cases hk : kv.1 = k
      · rw [if_pos hk]
        rw [lookupV_cons_ne (fun hx => h hx.symm)]
        rw [lookupV_cons_ne (by rw [hk]; exact fun hx => h hx.symm)]
      · rw [if_neg hk]
        by_cases hk' : kv.1 = k'
        · rw [lookupV_cons_eq hk', lookupV_cons_eq hk']
        · rw [lookupV_cons_ne hk', lookupV_cons_ne hk']
          exact ih

theorem ParamsLe.self_le (p : Params) : ParamsLe p p := by
  constructor
  · intro k
    exact Iff.rfl
  · intro k v0 v1 h0 h1
    rw [h0] at h1
    rw [Option.some.inj h1]

theorem ParamsLe.trans {p q r : Params} (h1 : ParamsLe q p)
    (h2 : ParamsLe r q) : ParamsLe r p := by
  constructor
  · intro k
    exact (h2.1 k).trans (h1.1 k)
  · intro k v0 v1 h0 hr
    have hq : (lookupV q k).isSome := by
      rw [h1.1 k, h0]
      rfl
    obtain ⟨vq, hvq⟩ := Option.isSome_iff_exists.mp hq
    exact le_trans (h2.2 k vq v1 hvq hr) (h1.2 k v0 vq h0 hvq)

/-- Writing a value bounded by the key's original value preserves the
nonincreasing relation to the original dict. -/
theorem ParamsLe.writeOrig {p p1 : Params} {k : String} {v v0 : PyVal}
    (hle : ParamsLe p1 p) (horig : lookupV p k = some v0)
    (hv : v.toQ ≤ v0.toQ) : ParamsLe (dictSet p1 k v) p := by
  constructor
  · intro k'
    by_cases hk : k' = k
    · subst hk
      rw [lookupV_dictSet_self, horig]
      exact ⟨fun _ => rfl, fun _ => rfl⟩
    · rw [lookupV_dictSet_ne _ _ hk]
      exact hle.1 k'
  · intro k' w0 w1 h0 h1
    by_cases hk : k' = k
    · subst hk
      rw [lookupV_dictSet_self] at h1
      rw [horig] at h0
      rw [← Option.some.inj h1, ← Option.some.inj h0]
      exact hv
    · rw [lookupV_dictSet_ne _ _ hk] at h1
      exact hle.2 k' w0 w1 h0 h1

/-- Writing a value bounded by the key's current value also preserves
the relation to the original dict. -/
theorem ParamsLe.writeCur {p p1 : Params} {k : String} {v cur : PyVal}
    (hle : ParamsLe p1 p) (hcur : lookupV p1 k = some cur)
    (hv : v.toQ ≤ cur.toQ) : ParamsLe (dictSet p1 k v) p := by
  have hp : (lookupV p k).isSome := by
    rw [← hle.1 k, hcur]
    rfl
  obtain ⟨v0, hv0⟩ := Option.isSome_iff_exists.mp hp
  exact hle.writeOrig hv0 (le_trans hv (hle.2 k v0 cur hv0 hcur))

/-- One step of the adjustment pass never increases any value and never
adds or removes a key. -/
theorem clampMax_le {max? : Option PyVal} {pname : String}
    {p p1 : Params} (h : clampMax max? pname p = .ok p1) :
    ParamsLe p1 p := by
  cases max? with
  | some m =>
      rw [clampMax] at h
      rcases bindE_ok.mp h with ⟨cur, hcur, h⟩
      have hq : p1 = dictSet p pname (pyMin m cur) :=
        (Except.ok.inj h).symm
      subst hq
      exact (ParamsLe.self_le p).writeOrig (dictGet_ok.mp hcur)
        (pyMin_le_right m cur)
  | none =>
      rw [clampMax] at h
      have hq : p1 = p := (Except.ok.inj h).symm
      subst hq
      exact ParamsLe.self_le _

theorem bestLower_le {c : Constraint} {pname : String} {p p1 q : Params}
    (h : bestLower c pname p1 = .ok q) (hle1 : ParamsLe p1 p) :
    ParamsLe q p := by
  rw [bestLower] at h
  by_cases hb : c.type = "best"
  · rw [if_pos hb] at h
    rcases bindE_ok.mp h with ⟨tv, htv, h⟩
    rcases bindE_ok.mp h with ⟨cur2, hcur2, h⟩
    by_cases hlt : tv.toQ < cur2.toQ
    · rw [if_pos hlt] at h
      have hq : q = dictSet p1 pname tv := (Except.ok.inj h).symm
      subst hq
      exact hle1.writeCur (dictGet_ok.mp hcur2) (le_of_lt hlt)
    · rw [if_neg hlt] at h
      have hq : q = p1 := (Except.ok.inj h).symm
      subst hq
      exact hle1
  · rw [if_neg hb] at h
    have hq : q = p1 := (Except.ok.inj h).symm
    subst hq
    exact hle1

theorem ratioClampMax_le {max? : Option PyVal} {n2 : String}
    {v1 v2 : PyVal} {p p1 : Params}
    (h : ratioClampMax max? n2 v1 v2 p = .ok p1)
    (hv2 : lookupV p n2 = some v2) : ParamsLe p1 p := by
  cases max? with
  | some m =>
      rw [ratioClampMax] at h
      rcases bindE_ok.mp h with ⟨mv2, _, h⟩
      have hq : p1 = dictSet p n2 (pyMin v2 mv2) :=
        (Except.ok.inj h).symm
      subst hq
      exact (ParamsLe.self_le p).writeOrig hv2 (pyMin_le_left v2 mv2)
  | none =>
      rw [ratioClampMax] at h
      have hq : p1 = p := (Except.ok.inj h).symm
      subst hq
      exact ParamsLe.self_le _

theorem ratioClampMin_le {min? max? : Option PyVal} {n1 : String}
    {v1 v2 : PyVal} {p p1 q : Params}
    (h : ratioClampMin min? max? n1 v1 v2 p1 = .ok q)
    (hle1 : ParamsLe p1 p) (hv1 : lookupV p n1 = some v1) :
    ParamsLe q p := by
  cases min? with
  | some lo =>
      rw [ratioClampMin] at h
      rcases bindE_ok.mp h with ⟨m, hm, h⟩
      have hq : q = dictSet p1 n1 (pyMin v1 (pyMul v2 m)) :=
        (Except.ok.inj h).symm
      subst hq
      exact hle1.writeOrig hv1 (pyMin_le_left v1 (pyMul v2 m))
  | none =>
      rw [ratioClampMin] at h
      have hq : q = p1 := (Except.ok.inj h).symm
      subst hq
      exact hle1

theorem applyCons1_le {c : Constraint} {p q : Params}
    (h : applyCons1 c p = .ok q) : ParamsLe q p := by
  rw [applyCons1] at h
  by_cases ht : c.type = "max" ∨ c.type = "min" ∨ c.type = "best"
  · rw [if_pos ht] at h
    rcases bindE_ok.mp h with ⟨pname, hpn, h⟩
    rcases bindE_ok.mp h with ⟨p1, hp1, h⟩
    exact bestLower_le h (clampMax_le hp1)
  · rw [if_neg ht] at h
    by_cases h4 : c.type = "ratio"
    · rw [if_pos h4] at h
      rcases bindE_ok.mp h with ⟨n1, hn1, h⟩
      rcases bindE_ok.mp h with ⟨n2, hn2, h⟩
      rcases bindE_ok.mp h with ⟨v1, hv1, h⟩
      rcases bindE_ok.mp h with ⟨v2, hv2, h⟩
      rcases bindE_ok.mp h with ⟨p1, hp1, h⟩
      exact ratioClampMin_le h
        (ratioClampMax_le hp1 (dictGet_ok.mp hv2)) (dictGet_ok.mp hv1)
    · rw [if_neg h4] at h
      have hq : q = p := (Except.ok.inj h).symm
      subst hq
      exact ParamsLe.self_le _

/-- C8: whenever the budgeted-search adjustment pass completes, it
neither adds nor removes a key, and every parameter's value after the
pass is less than or equal to its value before it — the adjustment only
ever decreases values. -/
theorem c8_apply_constraints_nonincreasing :
    ∀ (cons : List Constraint) (p q : Params),
      apply_constraints cons p = .ok q → ParamsLe q p := by
  intro cons
  induction cons with
  | nil =>
      intro p q h
      have : p = q := Except.ok.inj h
      subst this
      exact ParamsLe.self_le _
  | cons c rest ih =>
      intro p q h
      rw [apply_constraints] at h
      rcases bindE_ok.mp h with ⟨p1, hp1, h⟩
      exact ParamsLe.trans (applyCons1_le hp1) (ih p1 q h)

/-- Witness for C8: clamping "a" from 5 down to the max bound 3. -/
theorem c8_apply_constraints_nonincreasing_witness :
    ParamsLe [("a", PyVal.int 3)] [("a", PyVal.int 5)] :=
  c8_apply_constraints_nonincreasing [clampCons] [("a", PyVal.int 5)]
    [("a", PyVal.int 3)] (by decide)

theorem splitDots_ne_nil (l : List Char) : splitDots l ≠ [] := by
  cases l with
  | nil => simp [splitDots]
  | cons c rest =>
      rw [splitDots]
      cases splitDots rest with
      | nil => simp
      | cons part parts =>
          show (if c = '.' then [] :: part :: parts
            else (c :: part) :: parts) ≠ []
          by_cases hc : c = '.'
          · rw [if_pos hc]
            simp
          · rw [if_neg hc]
            simp

theorem joinDots_splitDots : ∀ l : List Char, joinDots (splitDots l) = l := by
  intro l
  induction l with
  | nil => rfl
  | cons c rest ih =>
      rw [splitDots]
      cases hs : splitDots rest with
      | nil => exact absurd hs (splitDots_ne_nil rest)
      | cons part parts =>
          rw [hs] at ih
          show joinDots (if c = '.' then [] :: part :: parts
            else (c :: part) :: parts) = c :: rest
          by_cases hc : c = '.'
          · rw [if_pos hc]
            have hj : joinDots ([] :: part :: parts) =
                '.' :: joinDots (part :: parts) := rfl
            rw [hj, ih, hc]
          · rw [if_neg hc]
            have hj : joinDots ((c :: part) :: parts) =
                c :: joinDots (part :: parts) := by
              cases parts with
              | nil => rfl
              | cons q qs => rfl
            rw [hj, ih]

theorem digit_bounds {c : Char} (h : c.isDigit = true) :
    48 ≤ c.toNat ∧ c.toNat ≤ 57 := by
  simp [Char.isDigit] at h
  exact h

theorem alphanum_bounds {c : Char} (h : c.isAlphanum = true) :
    (65 ≤ c.toNat ∧ c.toNat ≤ 90) ∨ (97 ≤ c.toNat ∧ c.toNat ≤ 122) ∨
    (48 ≤ c.toNat ∧ c.toNat ≤ 57) := by
  simp [Char.isAlphanum, Char.isAlpha, Char.isUpper, Char.isLower,
    Char.isDigit] at h
  rcases h with (h | h) | h
  · exact Or.inl h
  · exact Or.inr (Or.inl h)
  · exact Or.inr (Or.inr h)

theorem alphanum_not_ws {c : Char} (h : c.isAlphanum = true) :
    c.isWhitespace = false := by
  have hb := alphanum_bounds h
  have h1 : c ≠ ' ' := by
    intro he
    subst he
    revert hb
    decide
  have h2 : c ≠ '\t' := by
    intro he
    subst he
    revert hb
    decide
  have h3 : c ≠ '\r' := by
    intro he
    subst he
    revert hb
    decide
  have h4 : c ≠ '\n' := by
    intro he
    subst he
    revert hb
    decide
  rw [Char.isWhitespace]
  simp [h1, h2, h3, h4]

theorem alphanum_ne_plus {c : Char} (h : c.isAlphanum = true) :
    c ≠ '+' := by
  intro he
  subst he
  have hb := alphanum_bounds h
  revert hb
  decide

theorem alphanum_ne_minus {c : Char} (h : c.isAlphanum = true) :
    c ≠ '-' := by
  intro he
  subst he
  have hb := alphanum_bounds h
  revert hb
  decide

theorem pyStrip_alnum {part : List Char}
    (hal : ∀ c ∈ part, c.isAlphanum = true) : pyStrip part = part := by
  rw [pyStrip]
  have h1 : part.dropWhile Char.isWhitespace = part := by
    cases part with
    | nil => rfl
    | cons c cs =>
        rw [List.dropWhile_cons,
          alphanum_not_ws (hal c (List.mem_cons_self _ _))]
        simp
  rw [h1]
  have h2 : part.reverse.dropWhile Char.isWhitespace = part.reverse := by
    cases hrev : part.reverse with
    | nil => rfl
    | cons d ds =>
        have hd : d ∈ part := by
          rw [← List.mem_reverse, hrev]
          exact List.mem_cons_self _ _
        rw [List.dropWhile_cons, alphanum_not_ws (hal d hd)]
        simp
  rw [h2, List.reverse_reverse]

theorem pyInt?_alnum {part : List Char} (hne : part ≠ [])
    (hal : ∀ c ∈ part, c.isAlphanum = true) :
    pyInt? part = (if part.all Char.isDigit then
      some ((digitsToNat part : Nat) : Int) else none) := by
  cases part with
  | nil => exact absurd rfl hne
  | cons c cs =>
      rw [pyInt?, pyStrip_alnum hal]
      have hplus := alphanum_ne_plus (hal c (List.mem_cons_self _ _))
      have hminus := alphanum_ne_minus (hal c (List.mem_cons_self _ _))
      show (if c = '+' then
          if cs ≠ [] ∧ cs.all Char.isDigit then
            some ((digitsToNat cs : Nat) : Int) else none
        else if c = '-' then
          if cs ≠ [] ∧ cs.all Char.isDigit then
            some (-(digitsToNat cs : Int)) else none
        else if (c :: cs).all Char.isDigit then
          some ((digitsToNat (c :: cs) : Nat) : Int)
        else none) = _
      rw [if_neg hplus, if_neg hminus]

theorem natDigsAux_zero : ∀ f : Nat, natDigsAux f 0 = [] := by
  intro f
  cases f with
  | zero => rfl
  | succ f2 =>
      rw [natDigsAux]
      simp

theorem natDigsAux_fuel : ∀ (f g n : Nat), n < f → n < g →
    natDigsAux f n = natDigsAux g n := by
  intro f
  induction f with
  | zero =>
      intro g n hf hg
      exact absurd hf (Nat.not_lt_zero n)
  | succ f2 ih =>
      intro g n hf hg
      cases g with
      | zero => exact absurd hg (Nat.not_lt_zero n)
      | succ g2 =>
          rw [natDigsAux, natDigsAux]
          by_cases hn : n = 0
          · rw [if_pos hn, if_pos hn]
          · rw [if_neg hn, if_neg hn]
            have hlt := Nat.div_lt_self (Nat.pos_of_ne_zero hn)
              (by omega : 1 < 10)
            rw [ih g2 (n / 10) (by omega) (by omega)]

theorem natChars_small {n : Nat} (hn : n ≠ 0) (h10 : n < 10) :
    natChars n = [Char.ofNat (48 + n)] := by
  rw [natChars, if_neg hn, natDigsAux, if_neg hn]
  rw [Nat.div_eq_of_lt h10, Nat.mod_eq_of_lt h10, natDigsAux_zero]
  rfl

theorem natChars_large {n : Nat} (h10 : 10 ≤ n) :
    natChars n = natChars (n / 10) ++ [Char.ofNat (48 + n % 10)] := by
  have hn : n ≠ 0 := by omega
  have hq : 1 ≤ n / 10 := (Nat.le_div_iff_mul_le (by omega)).mpr (by omega)
  rw [natChars, if_neg hn, natDigsAux, if_neg hn]
  rw [natChars, if_neg (by omega : ¬ n / 10 = 0)]
  have hlt := Nat.div_lt_self (by omega : 0 < n) (by omega : 1 < 10)
  rw [natDigsAux_fuel n (n / 10 + 1) (n / 10) (by omega) (by omega)]

theorem digit_ofNat {c : Char} (h : c.isDigit = true) :
    Char.ofNat (48 + (c.toNat - 48)) = c := by
  obtain ⟨h1, h2⟩ := digit_bounds h
  have he : 48 + (c.toNat - 48) = c.toNat := by omega
  rw [he, Char.ofNat_toNat]

theorem digit_val_lt {c : Char} (h : c.isDigit = true) :
    c.toNat - 48 < 10 := by
  obtain ⟨h1, h2⟩ := digit_bounds h
  omega

theorem digitsToNat_cons (c : Char) (cs : List Char) :
    digitsToNat (c :: cs) = List.foldl
      (fun a d => 10 * a + (d.toNat - 48)) (c.toNat - 48) cs := by
  rw [digitsToNat, List.foldl_cons]
  norm_num

theorem digitsToNat_append (ds : List Char) (c : Char) :
    digitsToNat (ds ++ [c]) =
      10 * digitsToNat ds + (c.toNat - 48) := by
  rw [digitsToNat, digitsToNat, List.foldl_append]
  rfl

theorem foldl_digits_ge_one : ∀ (cs : List Char) (a : Nat), 1 ≤ a →
    1 ≤ List.foldl (fun a d => 10 * a + (d.toNat - 48)) a cs := by
  intro cs
  induction cs with
  | nil =>
      intro a h
      exact h
  | cons d ds ih =>
      intro a h
      rw [List.foldl_cons]
      exact ih _ (by omega)

theorem digitsToNat_pos {part : List Char} (hne : part ≠ [])
    (hd : ∀ c ∈ part, c.isDigit = true) (hz : part.head? ≠ some '0') :
    1 ≤ digitsToNat part := by
  cases part with
  | nil => exact absurd rfl hne
  | cons c cs =>
      rw [digitsToNat_cons]
      apply foldl_digits_ge_one
      have hcd := digit_bounds (hd c (List.mem_cons_self _ _))
      have hc0 : c ≠ '0' := by
        intro he
        rw [he] at hz
        exact hz rfl
      have hc48 : c.toNat ≠ 48 := by
        intro he
        apply hc0
        rw [← Char.ofNat_toNat c, he]
      omega

theorem natChars_digitsToNat : ∀ part : List Char, part ≠ [] →
    (∀ c ∈ part, c.isDigit = true) →
    (part.head? ≠ some '0' ∨ part = ['0']) →
    natChars (digitsToNat part) = part := by
  intro part
  induction part using List.reverseRecOn with
  | nil =>
      intro hne
      exact absurd rfl hne
  | append_singleton ds c ih =>
      intro hne hd hcanon
      by_cases hds : ds = []
      · subst hds
        simp only [List.nil_append]
        have hcdig := hd c (List.mem_cons_self _ _)
        have hcd := digit_bounds hcdig
        have hv : digitsToNat [c] = c.toNat - 48 := by
          rw [digitsToNat_cons]
          rfl
        rw [hv]
        by_cases h0 : c.toNat - 48 = 0
        · have hc0 : c = '0' := by
            rw [← Char.ofNat_toNat c, (by omega : c.toNat = 48)]
          rw [h0, hc0]
          rfl
        · rw [natChars_small h0 (by omega)]
          rw [digit_ofNat hcdig]
      · have hcin : c ∈ ds ++ [c] :=
          List.mem_append_right _ (List.mem_cons_self _ _)
        have hdds : ∀ x ∈ ds, x.isDigit = true :=
          fun x hx => hd x (List.mem_append_left _ hx)
        have hcdig := hd c hcin
        have hcd := digit_bounds hcdig
        have hhead : (ds ++ [c]).head? = ds.head? := by
          cases ds with
          | nil => exact absurd rfl hds
          | cons d dtail => rfl
        have hne2 : ds ++ [c] ≠ ['0'] := by
          intro he
          have hlen := congrArg List.length he
          simp at hlen
          exact hds hlen
        have hz : ds.head? ≠ some '0' := by
          rcases hcanon with hcz | habs
          · rw [hhead] at hcz
            exact hcz
          · exact absurd habs hne2
        have hpos := digitsToNat_pos hds hdds hz
        have hvd := digit_val_lt hcdig
        rw [digitsToNat_append]
        rw [natChars_large (by omega)]
        have hdiv : (10 * digitsToNat ds + (c.toNat - 48)) / 10 =
            digitsToNat ds := by omega
        have hmod : (10 * digitsToNat ds + (c.toNat - 48)) % 10 =
            c.toNat - 48 := by omega
        rw [hdiv, hmod, ih hds hdds (Or.inl hz), digit_ofNat hcdig]

theorem map_id_on {f : α → α} : ∀ l : List α,
    (∀ x ∈ l, f x = x) → l.map f = l
  | [], _ => rfl
  | x :: xs, h => by
      rw [List.map_cons, h x (List.mem_cons_self _ _),
        map_id_on xs (fun y hy => h y (List.mem_cons_of_mem _ hy))]

instance (part : List Char) : Decidable (goodPart part) :=
  inferInstanceAs (Decidable (part ≠ [] ∧ part.all Char.isAlphanum = true ∧
    (part.all Char.isDigit = true → part.head? ≠ some '0' ∨ part = ['0'])))

theorem parsePart_roundtrip {part : List Char} (h : goodPart part) :
    compChars (parsePart part) = part := by
  obtain ⟨hne, halb, hcanon⟩ := h
  have hal : ∀ c ∈ part, c.isAlphanum = true :=
    fun c hc => List.all_eq_true.mp halb c hc
  rw [parsePart, pyInt?_alnum hne hal]
  by_cases hdig : part.all Char.isDigit
  · rw [if_pos hdig]
    show intChars ((digitsToNat part : Nat) : Int) = part
    rw [intChars, if_neg (by omega : ¬ ((digitsToNat part : Nat) : Int) < 0)]
    have hd : ∀ c ∈ part, c.isDigit = true := by
      intro c hc
      exact List.all_eq_true.mp hdig c hc
    rw [Int.natAbs_ofNat]
    exact natChars_digitsToNat part hne hd (hcanon hdig)
  · rw [if_neg hdig]
    rfl

/-- C7 (amended): `format(parse(s)) = s` holds for every version string
whose dot-separated components are nonempty alphanumeric tokens that,
when made of digits only, have no leading zero (a leading zero is
normalized away: the all-digit token is parsed as an int and reprinted
canonically).  `parse_version` itself is total — no input raises. -/
theorem c7_format_parse_roundtrip :
    ∀ s : String, (∀ part ∈ splitDots s.data, goodPart part) →
      format_version (parse_version s) = s := by
  intro s hgood
  rw [parse_version, format_version, List.map_map]
  have hmap : (splitDots s.data).map (compChars ∘ parsePart) =
      splitDots s.data :=
    map_id_on _ (fun part hp => parsePart_roundtrip (hgood part hp))
  rw [hmap, joinDots_splitDots]

/-- Witness for C7 at the docstring example "1.2.3.beta". -/
theorem c7_format_parse_roundtrip_witness :
    format_version (parse_version "1.2.3.beta") = "1.2.3.beta" :=
  c7_format_parse_roundtrip "1.2.3.beta" (by decide)

/-- C7 counterexample: "01" is a dot-free alphanumeric token, yet it
parses to the int 1 and formats back as "1" — the round-trip law fails
on all-digit tokens with leading zeros. -/
theorem c7_leading_zero_cex :
    format_version (parse_version "01") = "1" ∧ ("1" : String) ≠ "01" := by
  decide

end Negotiate

